import Mathlib

/-!
Verification of the simple JSON decoder (`simple_json_parser.py`).

The Python source is shallowly embedded: the input string becomes a
`List Char`, every sub-parser becomes a function from the input and a start
offset to an `Except PyErr` result, and Python exceptions become the error
side of `Except`.  Machine-level caveats of the embedding are noted next to
each definition.
-/

set_option maxRecDepth 16000

namespace SimpleJson

/-- Python exceptions that can arise while decoding.
`indexError` models `IndexError` from an out-of-range string index;
`invalidJson` models `InvalidJSONError` raised by `raise_invalid_json_error`
(the model additionally records the offset used to format the message, the
Python object carries only the formatted string);
`unicodeDecodeError` models `UnicodeDecodeError`/`ValueError` raised by
`bytes(...).decode("unicode_escape")`;
`outOfFuel` is an artifact of the embedding: the mutually recursive parsers
are given a fuel argument, and the top level supplies more fuel than any
run can consume (no theorem below treats `outOfFuel` as Python behaviour). -/
inductive PyErr where
  | indexError
  | invalidJson (index : Nat) (message : String)
  | unicodeDecodeError
  | outOfFuel
deriving DecidableEq

/-- The decoded JSON value tree (the Python code uses native
`None`/`bool`/`int`/`float`/`str`/`list`/`dict` values).
`float ip fd` models the float produced from a lexeme `ip.fd` as the integer
part together with the list of fraction digits; `obj` models a Python dict
as its insertion-ordered association list. -/
inductive Json where
  | null
  | bool (b : Bool)
  | int (n : Int)
  | float (ip : Nat) (fd : List Nat)
  | str (s : List Char)
  | arr (elements : List Json)
  | obj (members : List (List Char × Json))

/-- Reading `inp[i]` in Python: the character, or `IndexError` when out of
range (all indices reached by the decoder are nonnegative). -/
def charAt (inp : List Char) (i : Nat) : Except PyErr Char :=
  if h : i < inp.length then .ok (inp.get ⟨i, h⟩) else .error .indexError

/-- The ASCII whitespace recognised by the regex `\s` used in
`skip_whitespace` (space, tab, newline, carriage return, vertical tab, form
feed).  The decoder's inputs of interest are ASCII; the extra Unicode
whitespace matched by Python's `\s` is not modelled. -/
def isPySpace (c : Char) : Bool :=
  c = ' ' || c = '\t' || c = '\n' || c = '\x0d' || c = '\x0b' || c = '\x0c'

/-- Length of the leading whitespace run of a suffix. -/
def countSpaces : List Char → Nat
  | [] => 0
  | c :: t => if isPySpace c then countSpaces t + 1 else 0

/-- `skip_whitespace(inp, start_index)`: the offset of the first
non-whitespace character at or after `start`, or `length inp` when none
exists (the regex `\s*` always matches, so this never throws). -/
def skip_whitespace (inp : List Char) (start : Nat := 0) : Nat :=
  start + countSpaces (inp.drop start)

/-- The default message template of `raise_invalid_json_error`: every call
site in the source passes `message=None`, so every raised error renders
this template with the offset, the whole input, and a caret line. -/
def defaultMsg (inp : List Char) (index : Nat) : String :=
  "Unexpected token at char(" ++ toString index ++ "):\n" ++ String.mk inp
    ++ "\n" ++ String.mk (List.replicate index ' ') ++ "^"

/-- `raise_invalid_json_error(inp, index)` (always called with the default
message). -/
def raiseErr {α : Type} (inp : List Char) (index : Nat) : Except PyErr α :=
  .error (.invalidJson index (defaultMsg inp index))

/-- The scan loop of `parse_string`: starting from the suffix of the input
at absolute offset `i`, advance by 2 past a backslash and by 1 otherwise
until an unescaped quote is found; running past the end of the input is an
`IndexError` (the suffix list mirrors `inp[i:]`, so the empty suffix is
exactly `i` out of range, and a backslash as last character jumps to
`i + 2 > length`, also out of range). -/
def scanStr : List Char → Nat → Except PyErr Nat
  | [], _ => .error .indexError
  | c :: t, i =>
    if c = '"' then .ok i
    else if c = '\\' then
      match t with
      | [] => .error .indexError
      | _ :: t2 => scanStr t2 (i + 2)
    else scanStr t (i + 1)

/-- UTF-8 bytes of one scalar (the `bytes(raw, "utf-8")` step). -/
def utf8Bytes (c : Char) : List Nat :=
  let n := c.toNat
  if n < 128 then [n]
  else if n < 2048 then [192 + n / 64, 128 + n % 64]
  else if n < 65536 then [224 + n / 4096, 128 + (n / 64) % 64, 128 + n % 64]
  else [240 + n / 262144, 128 + (n / 4096) % 64, 128 + (n / 64) % 64, 128 + n % 64]

/-- UTF-8 bytes of a string. -/
def utf8Encode (s : List Char) : List Nat := (s.map utf8Bytes).flatten

/-- Hexadecimal value of a byte that is an ASCII hex digit. -/
def hexVal? (b : Nat) : Option Nat :=
  if 48 ≤ b ∧ b ≤ 57 then some (b - 48)
  else if 97 ≤ b ∧ b ≤ 102 then some (b - 87)
  else if 65 ≤ b ∧ b ≤ 70 then some (b - 55)
  else none

/-- Octal value of a byte that is an ASCII octal digit. -/
def octVal? (b : Nat) : Option Nat :=
  if 48 ≤ b ∧ b ≤ 55 then some (b - 48) else none

/-- Decoder state of the `unicode_escape` codec loop, which consumes the
byte stream one byte at a time: `normal` outside any escape, `esc` right
after a backslash, `hex` inside a `\xHH`/`\uHHHH`/`\UHHHHHHHH` escape
(`isU32` marks the 8-digit form, which range-checks its value), and `oct`
after one or two octal digits of an octal escape. -/
inductive UEState where
  | normal
  | esc
  | hex (isU32 : Bool) (remaining : Nat) (acc : Nat)
  | oct (count : Nat) (acc : Nat)

/-- One byte outside an escape: a backslash opens an escape, any other byte
decodes as Latin-1. -/
def ueNormal (b : Nat) : List Char × UEState :=
  if b = 92 then ([], .esc) else ([Char.ofNat b], .normal)

/-- One step of the `unicode_escape` codec: consume byte `b` in state `st`,
producing the emitted characters and the next state, or a
`UnicodeDecodeError`.  Recognised escapes are the single-character ones,
backslash-newline (dropped), octal (up to three digits), `\xHH`, `\uHHHH`
and `\UHHHHHHHH`; an unrecognised escape keeps the backslash and the byte.
A named `\N` escape is modelled as a `UnicodeDecodeError`: the real codec
resolves a valid `\N{NAME}` through the Unicode name database, which is
beyond this embedding, and no theorem below evaluates an input containing
`\N`.  A `\uHHHH` naming a surrogate yields a lone surrogate in Python,
which is not a Unicode scalar and hence not a `Char`; the embedding maps it
through `Char.ofNat`'s default; no theorem below depends on that corner. -/
def ueStep : UEState → Nat → Except PyErr (List Char × UEState)
  | .normal, b => .ok (ueNormal b)
  | .esc, b =>
    if b = 110 then .ok (['\n'], .normal)
    else if b = 116 then .ok (['\t'], .normal)
    else if b = 114 then .ok (['\x0d'], .normal)
    else if b = 98 then .ok (['\x08'], .normal)
    else if b = 102 then .ok (['\x0c'], .normal)
    else if b = 97 then .ok (['\x07'], .normal)
    else if b = 118 then .ok (['\x0b'], .normal)
    else if b = 39 then .ok (['\x27'], .normal)
    else if b = 34 then .ok (['"'], .normal)
    else if b = 92 then .ok (['\\'], .normal)
    else if b = 10 then .ok ([], .normal)
    else if b = 120 then .ok ([], .hex false 2 0)
    else if b = 117 then .ok ([], .hex false 4 0)
    else if b = 85 then .ok ([], .hex true 8 0)
    else if b = 78 then .error .unicodeDecodeError
    else
      match octVal? b with
      | some o => .ok ([], .oct 1 o)
      | none => .ok (['\\', Char.ofNat b], .normal)
  | .hex isU32 remaining acc, b =>
    match hexVal? b with
    | none => .error .unicodeDecodeError
    | some v =>
      let acc := acc * 16 + v
      match remaining with
      | 0 => .error .unicodeDecodeError
      | 1 =>
        if isU32 ∧ acc > 1114111 then .error .unicodeDecodeError
        else .ok ([Char.ofNat acc], .normal)
      | r + 2 => .ok ([], .hex isU32 (r + 1) acc)
  | .oct count acc, b =>
    match octVal? b with
    | some o =>
      if count ≥ 2 then .ok ([Char.ofNat (acc * 8 + o)], .normal)
      else .ok ([], .oct (count + 1) (acc * 8 + o))
    | none =>
      let (cs, st) := ueNormal b
      .ok (Char.ofNat acc :: cs, st)

/-- End of the byte stream: a pending backslash or a truncated hex escape
is a `UnicodeDecodeError`; a pending octal escape emits its character. -/
def ueFinish : UEState → Except PyErr (List Char)
  | .normal => .ok []
  | .esc => .error .unicodeDecodeError
  | .hex _ _ _ => .error .unicodeDecodeError
  | .oct _ acc => .ok [Char.ofNat acc]

/-- Run the codec loop over the byte stream from state `st`. -/
def ueRun (st : UEState) : List Nat → Except PyErr (List Char)
  | [] => ueFinish st
  | b :: t =>
    match ueStep st b with
    | .error e => .error e
    | .ok (cs, st2) =>
      match ueRun st2 t with
      | .error e => .error e
      | .ok l => .ok (cs ++ l)

/-- The `.decode("unicode_escape")` step applied to a byte string. -/
def unicodeEscape (bs : List Nat) : Except PyErr (List Char) :=
  ueRun .normal bs

/-- `parse_string(inp, index)`: require a quote at `index`, scan for the
unescaped closing quote (skipping two characters at each backslash), then
resolve the raw span `inp[index+1:end]` through
`bytes(..., "utf-8").decode("unicode_escape")`; return the decoded string
and the offset of the closing quote. -/
def parse_string (inp : List Char) (index : Nat) : Except PyErr (List Char × Nat) :=
  match charAt inp index with
  | .error e => .error e
  | .ok c =>
    if c ≠ '"' then raiseErr inp index
    else
      let start := index + 1
      match scanStr (inp.drop start) start with
      | .error e => .error e
      | .ok endIndex =>
        match unicodeEscape (utf8Encode ((inp.drop start).take (endIndex - start))) with
        | .error e => .error e
        | .ok result => .ok (result, endIndex)

/-- The characters accepted by the accumulation loop of `parse_number`
(the Python test `inp[index] in "0123456789."`). -/
def isNumChar (c : Char) : Bool := c.isDigit || c = '.'

/-- `int(result_string)` on a string of decimal digits. -/
def natOfDigits (ds : List Char) : Nat :=
  ds.foldl (fun acc c => acc * 10 + (c.toNat - 48)) 0

/-- Split a number lexeme at its first `.` (the lexeme of a float). -/
def splitDot : List Char → List Char × List Char
  | [] => ([], [])
  | c :: t =>
    if c = '.' then ([], t)
    else
      let (a, b) := splitDot t
      (c :: a, b)

/-- `float(result_string)` on a lexeme holding exactly one `.`: the integer
part together with the values of the fraction digits. -/
def floatOfLexeme (ds : List Char) : Json :=
  let (ip, fd) := splitDot ds
  .float (natOfDigits ip) (fd.map (fun c => c.toNat - 48))

/-- The accumulation loop of `parse_number`, over the suffix `inp[i:]`
(passed explicitly; `inp` itself is kept only to format error messages).
Reading the loop condition past the end of the input is an `IndexError`;
a character in `0123456789.` is appended to the lexeme; a second dot, and a
dot not immediately followed by a digit, raise `InvalidJSONError` at the
current offset (the dot lookahead `inp[index+1]` is an `IndexError` when
the dot is the last character); the loop stops at the first character
outside `0123456789.`, returning the lexeme, the dot count, and that
character's offset. -/
def numLoop (inp : List Char) : List Char → Nat → List Char → Nat →
    Except PyErr (List Char × Nat × Nat)
  | [], _, _, _ => .error .indexError
  | c :: t, i, acc, dots =>
    if isNumChar c then
      let acc := acc ++ [c]
      if c = '.' then
        if dots + 1 > 1 then raiseErr inp i
        else
          match t with
          | [] => .error .indexError
          | d :: _ =>
            if ¬ d.isDigit then raiseErr inp i
            else numLoop inp t (i + 1) acc (dots + 1)
      else numLoop inp t (i + 1) acc dots
    else .ok (acc, dots, i)

/-- `parse_number(inp, index)`: `int(inp[index])` fails with `ValueError`
on a non-digit, which the surrounding `try` turns into
`InvalidJSONError` at `index` (an `IndexError` from `inp[index]` is not a
`ValueError` and propagates); then the loop accumulates the lexeme, and the
result is `int` of it when no dot appeared and `float` of it otherwise,
together with the offset of the last consumed character.  A non-ASCII
decimal digit (accepted by Python's `int()` but outside `"0123456789"`)
leaves the loop immediately with an empty lexeme, and `int("")` raises
`ValueError`, caught by the same `try`, so merging that corner into the
digit test is observationally equal. -/
def parse_number (inp : List Char) (index : Nat) : Except PyErr (Json × Nat) :=
  match charAt inp index with
  | .error e => .error e
  | .ok c =>
    if c.isDigit then
      match numLoop inp (inp.drop index) index [] 0 with
      | .error e => .error e
      | .ok (acc, dots, stop) =>
        if dots > 0 then .ok (floatOfLexeme acc, stop - 1)
        else .ok (.int (natOfDigits acc), stop - 1)
    else raiseErr inp index

/-- Python slice `inp[a:b]` (never raises). -/
def sliceOf (inp : List Char) (a b : Nat) : List Char :=
  (inp.drop a).take (b - a)

/-- `parse_true(inp, index)`: require `t` at `index`, then require the
4-character slice to be `true`; return `True` and `index + 3`. -/
def parse_true (inp : List Char) (index : Nat) : Except PyErr (Json × Nat) :=
  match charAt inp index with
  | .error e => .error e
  | .ok c =>
    if c ≠ 't' then raiseErr inp index
    else if sliceOf inp index (index + 4) ≠ "true".toList then raiseErr inp index
    else .ok (.bool true, index + 3)

/-- `parse_false(inp, index)`: require `f` at `index`, then compare the
**5-character** slice `inp[index:index+5]` against the 4-character keyword
`"true"` — this is the comparison the source performs (its line
`if inp[index: index+5] != "true"`), reproduced verbatim. -/
def parse_false (inp : List Char) (index : Nat) : Except PyErr (Json × Nat) :=
  match charAt inp index with
  | .error e => .error e
  | .ok c =>
    if c ≠ 'f' then raiseErr inp index
    else if sliceOf inp index (index + 5) ≠ "true".toList then raiseErr inp index
    else .ok (.bool false, index + 4)

/-- `parse_null(inp, index)`: require `n` at `index`, then require the
4-character slice to be `null`; return `None` and `index + 3`. -/
def parse_null (inp : List Char) (index : Nat) : Except PyErr (Json × Nat) :=
  match charAt inp index with
  | .error e => .error e
  | .ok c =>
    if c ≠ 'n' then raiseErr inp index
    else if sliceOf inp index (index + 4) ≠ "null".toList then raiseErr inp index
    else .ok (.null, index + 3)

/-- `result[key] = value` on a Python dict modelled as its
insertion-ordered association list: an existing key keeps its position and
gets the new value, a new key is appended. -/
def dictInsert (d : List (List Char × Json)) (k : List Char) (v : Json) :
    List (List Char × Json) :=
  match d with
  | [] => [(k, v)]
  | (k2, v2) :: t => if k2 = k then (k, v) :: t else (k2, v2) :: dictInsert t k v

/-- `dict.get` on the association-list model of a Python dict. -/
def dictLookup (d : List (List Char × Json)) (k : List Char) : Option Json :=
  match d with
  | [] => none
  | (k2, v2) :: t => if k2 = k then some v2 else dictLookup t k

mutual

/-- `_parse_json(inp, index)`: dispatch on the character at `index` —
`{` object, `[` array, `"` string, `t`/`f`/`n` the literals, anything else
the number parser.  The `fuel` argument is an artifact of the embedding
(Python's mutual recursion carries no counter); the top level supplies more
fuel than any run consumes. -/
def _parse_json (inp : List Char) (index : Nat) (fuel : Nat) :
    Except PyErr (Json × Nat) :=
  match fuel with
  | 0 => .error .outOfFuel
  | fuel + 1 =>
    match charAt inp index with
    | .error e => .error e
    | .ok c =>
      if c = '{' then parse_object inp index fuel
      else if c = '[' then parse_array inp index fuel
      else if c = '"' then
        match parse_string inp index with
        | .error e => .error e
        | .ok (s, e) => .ok (.str s, e)
      else if c = 't' then parse_true inp index
      else if c = 'f' then parse_false inp index
      else if c = 'n' then parse_null inp index
      else parse_number inp index
termination_by structural fuel

/-- `parse_object(inp, index)`: require `{` at `index`, then run the
member loop. -/
def parse_object (inp : List Char) (index : Nat) (fuel : Nat) :
    Except PyErr (Json × Nat) :=
  match fuel with
  | 0 => .error .outOfFuel
  | fuel + 1 =>
    match charAt inp index with
    | .error e => .error e
    | .ok c =>
      if c ≠ '{' then raiseErr inp index
      else parse_object_loop inp index [] fuel
termination_by structural fuel

/-- The `while inp[index] != "}"` loop of `parse_object`.  At entry `index`
is the `{` (first iteration) or the `,` before the next pair or the closing
`}` (which ends the loop, returning the dict and its offset).  One
iteration parses `key`, requires `:` (raising at the *loop* offset on
mismatch, as the source does), parses the value, stores it, and then
requires `,` (whose whitespace-skipped successor must not be `}`, else
`TrailingComma` at `next_character_index + 1`) or `}`. -/
def parse_object_loop (inp : List Char) (index : Nat)
    (result : List (List Char × Json)) (fuel : Nat) : Except PyErr (Json × Nat) :=
  match fuel with
  | 0 => .error .outOfFuel
  | fuel + 1 =>
    match charAt inp index with
    | .error e => .error e
    | .ok c =>
      if c = '}' then .ok (.obj result, index)
      else
        match parse_string inp (skip_whitespace inp (index + 1)) with
        | .error e => .error e
        | .ok (key, keyEnd) =>
          let colonIndex := skip_whitespace inp (keyEnd + 1)
          match charAt inp colonIndex with
          | .error e => .error e
          | .ok cc =>
            if cc ≠ ':' then raiseErr inp index
            else
              match _parse_json inp (skip_whitespace inp (colonIndex + 1)) fuel with
              | .error e => .error e
              | .ok (value, valueEnd) =>
                let result := dictInsert result key value
                let nextIndex := skip_whitespace inp (valueEnd + 1)
                match charAt inp nextIndex with
                | .error e => .error e
                | .ok nc =>
                  if nc = ',' then
                    match charAt inp (skip_whitespace inp (nextIndex + 1)) with
                    | .error e => .error e
                    | .ok pc =>
                      if pc = '}' then raiseErr inp (nextIndex + 1)
                      else parse_object_loop inp nextIndex result fuel
                  else if nc ≠ '}' then raiseErr inp nextIndex
                  else parse_object_loop inp nextIndex result fuel
termination_by structural fuel

/-- `parse_array(inp, index)`: require `[` at `index`, then run the
element loop. -/
def parse_array (inp : List Char) (index : Nat) (fuel : Nat) :
    Except PyErr (Json × Nat) :=
  match fuel with
  | 0 => .error .outOfFuel
  | fuel + 1 =>
    match charAt inp index with
    | .error e => .error e
    | .ok c =>
      if c ≠ '[' then raiseErr inp index
      else parse_array_loop inp index [] fuel
termination_by structural fuel

/-- The `while inp[index] != "]"` loop of `parse_array`, symmetric to the
object loop: one iteration parses an element (dispatching), appends it, and
requires `,` (not immediately followed by `]`, else `TrailingComma`) or
`]` (which ends the loop on re-entry, returning the list and its offset). -/
def parse_array_loop (inp : List Char) (index : Nat) (result : List Json)
    (fuel : Nat) : Except PyErr (Json × Nat) :=
  match fuel with
  | 0 => .error .outOfFuel
  | fuel + 1 =>
    match charAt inp index with
    | .error e => .error e
    | .ok c =>
      if c = ']' then .ok (.arr result, index)
      else
        match _parse_json inp (skip_whitespace inp (index + 1)) fuel with
        | .error e => .error e
        | .ok (value, valueEnd) =>
          let result := result ++ [value]
          let nextIndex := skip_whitespace inp (valueEnd + 1)
          match charAt inp nextIndex with
          | .error e => .error e
          | .ok nc =>
            if nc = ',' then
              match charAt inp (skip_whitespace inp (nextIndex + 1)) with
              | .error e => .error e
              | .ok pc =>
                if pc = ']' then raiseErr inp (nextIndex + 1)
                else parse_array_loop inp nextIndex result fuel
            else if nc ≠ ']' then raiseErr inp nextIndex
            else parse_array_loop inp nextIndex result fuel
termination_by structural fuel

end

/-- The fuel the top level hands to `_parse_json`: more than any run over
`inp` can consume (each unit of consumed fuel either enters a loop
iteration or dispatches one nested value, and both strictly advance the
cursor before recursing further). -/
def topFuel (inp : List Char) : Nat := 2 * inp.length + 4

/-- The body of the `try` block of `parse_json`: dispatch once from
`start`, skip trailing whitespace, and require the input to be exhausted
(else `TrailingContent`). -/
def parse_json_attempt (inp : List Char) (start : Nat) : Except PyErr Json :=
  match _parse_json inp start (topFuel inp) with
  | .error e => .error e
  | .ok (result, index) =>
    let index2 := skip_whitespace inp (index + 1)
    if index2 < inp.length then raiseErr inp index2
    else .ok result

/-- `parse_json(json_string)`, the entry point: skip leading whitespace and
fail on exhausted input; require the first significant character to be `{`
or `[`; run the dispatcher and the trailing-content check inside a `try`
whose `except IndexError` re-raises `InvalidJSONError` at
`len(json_string)` (an `InvalidJSONError` raised inside the `try` is not an
`IndexError` and propagates unchanged). -/
def parse_json (inp : List Char) : Except PyErr Json :=
  let start := skip_whitespace inp 0
  if h : start < inp.length then
    let firstChar := inp.get ⟨start, h⟩
    if firstChar = '{' ∨ firstChar = '[' then
      match parse_json_attempt inp start with
      | .error .indexError => raiseErr inp inp.length
      | r => r
    else raiseErr inp start
  else raiseErr inp start

/-! ### Reference encoder (spec-modelled)

The round-trip property of the spec quantifies over the output of "a
reference JSON encoder", which is not part of the repository.  The encoder
below is modelled from the spec: it prints the supported variants in
standard JSON syntax with no optional whitespace, escaping `"`, `\` and the
short-escape control characters with two-character escapes and every other
character outside printable ASCII as `\uXXXX` (ASCII-only output, as
`json.dumps` produces by default). -/

/-- ASCII digit of a value below ten. -/
def digitChar (d : Nat) : Char := Char.ofNat (48 + d)

/-- Decimal digits of a natural number (the rendering of a Python `int`). -/
def natToDigits (n : Nat) : List Char :=
  if n < 10 then [digitChar n]
  else natToDigits (n / 10) ++ [digitChar (n % 10)]
decreasing_by exact Nat.div_lt_self (by omega) (by omega)

/-- Lowercase hexadecimal digit of a value below sixteen. -/
def hexDigitChar (d : Nat) : Char :=
  if d < 10 then Char.ofNat (48 + d) else Char.ofNat (87 + d)

/-- Four lowercase hexadecimal digits of a value below `0x10000`. -/
def hex4 (n : Nat) : List Char :=
  [hexDigitChar (n / 4096 % 16), hexDigitChar (n / 256 % 16),
   hexDigitChar (n / 16 % 16), hexDigitChar (n % 16)]

/-- One token of an encoded string body: a literal character, a
two-character escape `\c`, or a `\uXXXX` escape. -/
inductive StrTok where
  | raw (c : Char)
  | esc (c : Char)
  | uesc (a b c d : Char)

/-- The source text of a token. -/
def tokText : StrTok → List Char
  | .raw c => [c]
  | .esc c => ['\\', c]
  | .uesc a b c d => ['\\', 'u', a, b, c, d]

/-- Hexadecimal value of a hex-digit character. -/
def hexCharVal (c : Char) : Nat := (hexVal? c.toNat).getD 0

/-- Whether a character is an ASCII hexadecimal digit. -/
def isHexDigit (c : Char) : Bool := (hexVal? c.toNat).isSome

/-- The characters that the `unicode_escape` codec produces for a
two-character escape `\c`: the escaped character for the JSON short
escapes, but backslash **and** slash for `\/`, which the codec does not
recognise. -/
def escCharVal (c : Char) : List Char :=
  if c = '"' then ['"']
  else if c = '\\' then ['\\']
  else if c = 'b' then ['\x08']
  else if c = 'f' then ['\x0c']
  else if c = 'n' then ['\n']
  else if c = 'r' then ['\x0d']
  else if c = 't' then ['\t']
  else ['\\', c]

/-- The characters a token decodes to through the codec. -/
def tokVal : StrTok → List Char
  | .raw c => [c]
  | .esc c => escCharVal c
  | .uesc a b c d =>
    [Char.ofNat (hexCharVal a * 4096 + hexCharVal b * 256 + hexCharVal c * 16 + hexCharVal d)]

/-- Tokens whose behaviour under the scanner and the codec is the intended
one: a raw token is printable ASCII and neither quote nor backslash; a
two-character escape is one of the eight JSON escapes; a `\uXXXX` escape
has four hex digits naming a Unicode scalar value. -/
def wfTok : StrTok → Bool
  | .raw c => decide (31 < c.toNat ∧ c.toNat < 127) && c != '"' && c != '\\'
  | .esc c => c = '"' || c = '\\' || c = '/' || c = 'b' || c = 'f' || c = 'n' || c = 'r' || c = 't'
  | .uesc a b c d =>
    isHexDigit a && isHexDigit b && isHexDigit c && isHexDigit d &&
      decide (hexCharVal a * 4096 + hexCharVal b * 256 + hexCharVal c * 16 + hexCharVal d < 55296
        ∨ 57344 ≤ hexCharVal a * 4096 + hexCharVal b * 256 + hexCharVal c * 16 + hexCharVal d)

/-- How the reference encoder escapes one string character. -/
def escapeChar (c : Char) : StrTok :=
  if c = '"' then .esc '"'
  else if c = '\\' then .esc '\\'
  else if c = '\n' then .esc 'n'
  else if c = '\x0d' then .esc 'r'
  else if c = '\t' then .esc 't'
  else if c = '\x08' then .esc 'b'
  else if c = '\x0c' then .esc 'f'
  else if 31 < c.toNat ∧ c.toNat < 127 then .raw c
  else .uesc (hexDigitChar (c.toNat / 4096 % 16)) (hexDigitChar (c.toNat / 256 % 16))
    (hexDigitChar (c.toNat / 16 % 16)) (hexDigitChar (c.toNat % 16))

/-- Source text of a token list. -/
def flatText (toks : List StrTok) : List Char := (toks.map tokText).flatten

/-- Decoded characters of a token list. -/
def flatVal (toks : List StrTok) : List Char := (toks.map tokVal).flatten

/-- The encoder's rendering of a string value. -/
def encodeString (s : List Char) : List Char :=
  '"' :: flatText (s.map escapeChar) ++ ['"']

mutual

/-- Modelled from the spec: the reference JSON encoder of the round-trip
property (the repository itself has no encoder).  Nonnegative integers
print as their digits, negative ones with a leading minus, floats as
`intpart.fractiondigits`, strings through `encodeString`, and containers
with comma-separated members and no optional whitespace. -/
def encodeJson : Json → List Char
  | .null => "null".toList
  | .bool true => "true".toList
  | .bool false => "false".toList
  | .int n => if n < 0 then '-' :: natToDigits n.natAbs else natToDigits n.toNat
  | .float ip fd => natToDigits ip ++ '.' :: fd.map digitChar
  | .str s => encodeString s
  | .arr xs => '[' :: encodeElems xs ++ [']']
  | .obj kvs => '{' :: encodeMembers kvs ++ ['}']

/-- Comma-separated renderings of array elements. -/
def encodeElems : List Json → List Char
  | [] => []
  | [x] => encodeJson x
  | x :: xs => encodeJson x ++ ',' :: encodeElems xs

/-- Comma-separated renderings of object members. -/
def encodeMembers : List (List Char × Json) → List Char
  | [] => []
  | [(k, v)] => encodeString k ++ ':' :: encodeJson v
  | (k, v) :: kvs => encodeString k ++ ':' :: encodeJson v ++ ',' :: encodeMembers kvs

end

/-- Whether none of the keys of the later pairs equals the key of an
earlier pair. -/
def distinctKeys : List (List Char × Json) → Bool
  | [] => true
  | (k, _) :: t => !(t.any (fun kv => kv.1 == k)) && distinctKeys t

mutual

/-- The value trees of the amended round-trip claim: no `false` anywhere
(the false-literal parser never succeeds), no negative integer and no
empty container (the grammar has no minus sign, and the container loops
reject the empty forms), floats with a nonempty list of fraction digits
below ten, strings of basic-multilingual-plane scalars, and objects with
pairwise distinct keys. -/
def wfJson : Json → Bool
  | .null => true
  | .bool b => b
  | .int n => decide (0 ≤ n)
  | .float _ fd => !fd.isEmpty && fd.all (fun d => decide (d < 10))
  | .str s => s.all (fun c => decide (c.toNat < 65536))
  | .arr xs => !xs.isEmpty && wfElems xs
  | .obj kvs => !kvs.isEmpty && distinctKeys kvs && wfMembers kvs

/-- Well-formedness of every element of an array. -/
def wfElems : List Json → Bool
  | [] => true
  | x :: xs => wfJson x && wfElems xs

/-- Well-formedness of every key and value of an object. -/
def wfMembers : List (List Char × Json) → Bool
  | [] => true
  | (k, v) :: kvs =>
    k.all (fun c => decide (c.toNat < 65536)) && wfJson v && wfMembers kvs

end

mutual

/-- Fuel sufficient for `_parse_json` to parse the encoding of a value:
one unit for the dispatch plus, for containers, one for the bracket check
and the loop's needs. -/
def costJson : Json → Nat
  | .arr xs => 2 + costElems xs
  | .obj kvs => 2 + costMembers kvs
  | _ => 1

/-- Fuel sufficient for the array loop over the remaining elements (one
unit per iteration, including the final one that sees `]`). -/
def costElems : List Json → Nat
  | [] => 1
  | x :: xs => 1 + costJson x + costElems xs

/-- Fuel sufficient for the object loop over the remaining members. -/
def costMembers : List (List Char × Json) → Nat
  | [] => 1
  | (_, v) :: kvs => 1 + costJson v + costMembers kvs

end

/-- Whether a value is an object or an array (the only roots the entry
point accepts). -/
def isContainer : Json → Bool
  | .arr _ => true
  | .obj _ => true
  | _ => false

/-- Guard on the text following an encoded value: a number lexeme must be
followed by a character outside `0123456789.` (the number loop otherwise
reads past the lexeme), and the other variants need nothing. -/
def numGuard : Json → List Char → Prop
  | .int _, rest => ∃ c r, rest = c :: r ∧ isNumChar c = false
  | .float _ _, rest => ∃ c r, rest = c :: r ∧ isNumChar c = false
  | _, _ => True

/-- The round-trip property of one value: the dispatcher, given enough
fuel and the value's encoding at the cursor (followed, for a number, by a
character outside the number alphabet), returns the value and the offset
of the encoding's last character. -/
def ParsesBack (v : Json) : Prop :=
  wfJson v = true → ∀ f, costJson v ≤ f → ∀ (inp : List Char) (i : Nat) (rest : List Char),
    inp.drop i = encodeJson v ++ rest → numGuard v rest →
    _parse_json inp i f = .ok (v, i + (encodeJson v).length - 1)

/-- Number of dots in a number lexeme. -/
def countDots (ds : List Char) : Nat := ds.countP (fun c => c = '.')

/-- Whether every dot of a number lexeme is immediately followed, inside
the lexeme, by a digit (so in particular no dot is last). -/
def dotOk : List Char → Bool
  | [] => true
  | c :: t =>
    if c = '.' then
      (match t with
       | [] => false
       | d :: _ => d.isDigit) && dotOk t
    else dotOk t

/-- The value `parse_number` builds from a lexeme: a float when a dot
appeared, an int otherwise. -/
def numValue (ds : List Char) : Json :=
  if 0 < countDots ds then floatOfLexeme ds else .int (natOfDigits ds)

/-- Prepend characters to the payload of a fallible character list (the
shape of one codec step's contribution to `ueRun`). -/
def prependRes (cs : List Char) : Except PyErr (List Char) → Except PyErr (List Char)
  | .error e => .error e
  | .ok l => .ok (cs ++ l)

/-- Message uniformity of a result over input `inp`: an `InvalidJSONError`
carries exactly the default template rendered over `inp` at its own
offset (every `raise_invalid_json_error` call site in the source passes
`message=None`); a success or any other exception kind is unconstrained. -/
def MsgOk {α : Type} (inp : List Char) : Except PyErr α → Prop
  | .error (.invalidJson i m) => m = defaultMsg inp i
  | _ => True

/-! ### Cursor lemmas -/

theorem charAt_of_drop {inp : List Char} {i : Nat} {c : Char} {t : List Char}
    (h : inp.drop i = c :: t) : charAt inp i = .ok c := by
  have hi : i < inp.length := by
    by_contra hn
    rw [List.drop_eq_nil_of_le (by omega)] at h
    cases h
  rw [List.drop_eq_getElem_cons hi] at h
  injection h with h1 _
  simp [charAt, hi, h1]

theorem drop_succ_of_drop {inp : List Char} {i : Nat} {c : Char} {t : List Char}
    (h : inp.drop i = c :: t) : inp.drop (i + 1) = t := by
  have hi : i < inp.length := by
    by_contra hn
    rw [List.drop_eq_nil_of_le (by omega)] at h
    cases h
  rw [List.drop_eq_getElem_cons hi] at h
  injection h with _ h2

theorem charAt_none_of_drop {inp : List Char} {i : Nat}
    (h : inp.drop i = []) : charAt inp i = .error .indexError := by
  have hi : inp.length ≤ i := by
    by_contra hn
    rw [List.drop_eq_getElem_cons (by omega)] at h
    cases h
  simp [charAt]
  omega

theorem skip_whitespace_of_not_space {inp : List Char} {i : Nat} {c : Char} {t : List Char}
    (h : inp.drop i = c :: t) (hc : isPySpace c = false) :
    skip_whitespace inp i = i := by
  unfold skip_whitespace
  rw [h]
  unfold countSpaces
  rw [hc]
  simp

theorem skip_whitespace_of_drop_nil {inp : List Char} {i : Nat}
    (h : inp.drop i = []) : skip_whitespace inp i = i := by
  unfold skip_whitespace
  rw [h]
  rfl

/-- The top level never lets an `IndexError` out: the `except IndexError`
branch converts it, and every other branch of `parse_json` produces either
a value or an `InvalidJSONError`. -/
theorem parse_json_never_indexError (s : List Char) :
    parse_json s ≠ .error .indexError := by
  unfold parse_json
  by_cases h : skip_whitespace s 0 < s.length
  · rw [dif_pos h]
    by_cases hg : s.get ⟨skip_whitespace s 0, h⟩ = '{' ∨ s.get ⟨skip_whitespace s 0, h⟩ = '['
    · rw [if_pos hg]
      rcases hA : parse_json_attempt s (skip_whitespace s 0) with e | v
      · cases e <;> simp [hA, raiseErr]
      · simp [hA]
    · rw [if_neg hg]
      simp [raiseErr]
  · rw [dif_neg h]
    simp [raiseErr]

/-- When the root guards pass and the guarded body raises `IndexError`,
the entry point re-raises at end of input. -/
theorem parse_json_catches_indexError (s : List Char)
    (h : skip_whitespace s 0 < s.length)
    (hg : s.get ⟨skip_whitespace s 0, h⟩ = '{' ∨ s.get ⟨skip_whitespace s 0, h⟩ = '[')
    (hA : parse_json_attempt s (skip_whitespace s 0) = .error .indexError) :
    parse_json s = .error (.invalidJson s.length (defaultMsg s s.length)) := by
  unfold parse_json
  rw [dif_pos h, if_pos hg, hA]
  rfl

/-- `dict[k] = v` followed by lookup of `k` yields `v`, whatever the dict
held before. -/
theorem dictLookup_dictInsert (d : List (List Char × Json)) (k : List Char) (v : Json) :
    dictLookup (dictInsert d k v) k = some v := by
  induction d with
  | nil => simp [dictInsert, dictLookup]
  | cons kv t ih =>
    obtain ⟨k2, v2⟩ := kv
    by_cases hk : k2 = k
    · simp [dictInsert, dictLookup, hk]
    · simp [dictInsert, dictLookup, hk, ih]

/-! ### The number parser on a well-delimited lexeme -/

theorem countDots_cons (d : Char) (t : List Char) :
    countDots (d :: t) = (if d = '.' then 1 else 0) + countDots t := by
  simp [countDots, List.countP_cons]
  split <;> omega

theorem dotOk_dot_cons (e : Char) (es : List Char) :
    dotOk ('.' :: e :: es) = (e.isDigit && dotOk (e :: es)) := rfl

theorem dotOk_nondot_cons {d : Char} (t : List Char) (h : ¬ d = '.') :
    dotOk (d :: t) = dotOk t := by
  rw [dotOk.eq_def]
  simp [h]

theorem numLoop_step_digit {inp : List Char} {d : Char}
    (hd : isNumChar d = true) (hdot : ¬ d = '.')
    (t : List Char) (i : Nat) (acc : List Char) (dots : Nat) :
    numLoop inp (d :: t) i acc dots = numLoop inp t (i + 1) (acc ++ [d]) dots := by
  rw [numLoop]
  simp [hd, hdot]

theorem numLoop_step_dot {inp : List Char} {e : Char} (he : e.isDigit = true)
    (t : List Char) (i : Nat) (acc : List Char) :
    numLoop inp ('.' :: e :: t) i acc 0 = numLoop inp (e :: t) (i + 1) (acc ++ ['.']) 1 := by
  rw [numLoop]
  simp [isNumChar, he]

theorem numLoop_ok : ∀ (ds : List Char) (inp : List Char) (c : Char) (rest : List Char)
    (i : Nat) (acc : List Char) (dots : Nat),
    (∀ d ∈ ds, isNumChar d = true) →
    isNumChar c = false →
    dotOk ds = true →
    countDots ds + dots ≤ 1 →
    numLoop inp (ds ++ c :: rest) i acc dots =
      .ok (acc ++ ds, dots + countDots ds, i + ds.length) := by
  intro ds
  induction ds with
  | nil =>
    intro inp c rest i acc dots _ hc _ _
    simp [numLoop, hc, countDots]
  | cons d ds' ih =>
    intro inp c rest i acc dots hall hc hdot hcount
    have hd : isNumChar d = true := hall d (by simp)
    have hcd : countDots (d :: ds') = (if d = '.' then 1 else 0) + countDots ds' :=
      countDots_cons d ds'
    rw [List.cons_append]
    by_cases hdotc : d = '.'
    · subst hdotc
      rw [if_pos rfl] at hcd
      have hdots0 : dots = 0 := by omega
      subst hdots0
      cases ds' with
      | nil => simp [dotOk] at hdot
      | cons e es =>
        rw [dotOk_dot_cons, Bool.and_eq_true] at hdot
        obtain ⟨he, hdot'⟩ := hdot
        have hih := ih inp c rest (i + 1) (acc ++ ['.']) 1
          (fun x hx => hall x (by simp [hx])) hc hdot' (by omega)
        rw [List.cons_append] at hih
        rw [List.cons_append, numLoop_step_dot he, hih]
        have hl : acc ++ ['.'] ++ (e :: es) = acc ++ '.' :: e :: es := by simp
        rw [hl, hcd]
        simp only [Except.ok.injEq, Prod.mk.injEq, List.length_cons, true_and]
        omega
    · rw [if_neg hdotc] at hcd
      rw [numLoop_step_digit hd hdotc, ih inp c rest (i + 1) (acc ++ [d]) dots
        (fun x hx => hall x (by simp [hx])) hc
        (by rwa [dotOk_nondot_cons _ hdotc] at hdot) (by omega)]
      rw [hcd]
      simp only [Except.ok.injEq, Prod.mk.injEq, List.length_cons, List.append_assoc,
        List.singleton_append, true_and]
      omega

/-- `parse_number` on a lexeme `ds` starting with a digit, drawn from
`0123456789.`, properly dotted, and followed by a character outside the
number alphabet: it consumes exactly `ds` and returns its value and the
offset of its last character. -/
theorem parse_number_ok (inp : List Char) (i : Nat) (ds : List Char) (c : Char)
    (rest : List Char)
    (hdrop : inp.drop i = ds ++ c :: rest)
    (hhead : ∀ d, ds.head? = some d → d.isDigit = true)
    (hne : ds ≠ [])
    (hall : ∀ d ∈ ds, isNumChar d = true)
    (hc : isNumChar c = false)
    (hdot : dotOk ds = true)
    (hcount : countDots ds ≤ 1) :
    parse_number inp i = .ok (numValue ds, i + ds.length - 1) := by
  obtain ⟨d, ds', rfl⟩ : ∃ d ds', ds = d :: ds' := by
    cases ds with
    | nil => exact absurd rfl hne
    | cons d ds' => exact ⟨d, ds', rfl⟩
  have hd : d.isDigit = true := hhead d rfl
  have hchar : charAt inp i = .ok d := charAt_of_drop (by rw [hdrop]; rfl)
  unfold parse_number
  rw [hchar]
  simp only [hd, if_true]
  rw [hdrop, numLoop_ok (d :: ds') inp c rest i [] 0 hall hc hdot (by omega)]
  simp only [List.nil_append, Nat.zero_add]
  unfold numValue
  by_cases h0 : 0 < countDots (d :: ds')
  · simp [h0]
  · simp [h0]

/-- A non-digit at the start offset makes `parse_number` raise
`InvalidJSONError` there (Python's `int(inp[index])` raises `ValueError`,
caught by the surrounding `try`). -/
theorem parse_number_non_digit (inp : List Char) (i : Nat) (c : Char) (t : List Char)
    (hdrop : inp.drop i = c :: t) (hc : c.isDigit = false) :
    parse_number inp i = raiseErr inp i := by
  unfold parse_number
  rw [charAt_of_drop hdrop]
  simp [hc]

/-! ### The string parser on a token-decomposed body -/

theorem char_eq_of_toNat_eq {a b : Char} (h : a.toNat = b.toNat) : a = b := by
  rw [← Char.ofNat_toNat a, ← Char.ofNat_toNat b, h]

theorem char_ne_of_toNat_ne {a b : Char} (h : a.toNat ≠ b.toNat) : a ≠ b :=
  fun he => h (by rw [he])

theorem hexVal_eq_of_isHexDigit {c : Char} (h : isHexDigit c = true) :
    hexVal? c.toNat = some (hexCharVal c) := by
  unfold isHexDigit at h
  unfold hexCharVal
  cases hv : hexVal? c.toNat with
  | none => rw [hv] at h; simp at h
  | some v => simp [hv]

theorem toNat_bounds_of_isHexDigit {c : Char} (h : isHexDigit c = true) :
    (48 ≤ c.toNat ∧ c.toNat ≤ 57) ∨ (97 ≤ c.toNat ∧ c.toNat ≤ 102) ∨
      (65 ≤ c.toNat ∧ c.toNat ≤ 70) := by
  unfold isHexDigit hexVal? at h
  split_ifs at h with h1 h2 h3
  · exact Or.inl h1
  · exact Or.inr (Or.inl h2)
  · exact Or.inr (Or.inr h3)
  · simp at h

theorem hexDigit_ne_quote {c : Char} (h : isHexDigit c = true) : c ≠ '"' := by
  apply char_ne_of_toNat_ne
  have := toNat_bounds_of_isHexDigit h
  intro hc
  rw [show ('"').toNat = 34 from rfl] at hc
  omega

theorem hexDigit_ne_backslash {c : Char} (h : isHexDigit c = true) : c ≠ '\\' := by
  apply char_ne_of_toNat_ne
  have := toNat_bounds_of_isHexDigit h
  intro hc
  rw [show ('\\').toNat = 92 from rfl] at hc
  omega

theorem hexDigit_ascii {c : Char} (h : isHexDigit c = true) : c.toNat < 128 := by
  have := toNat_bounds_of_isHexDigit h
  omega

/-- Decomposition of a well-formed raw token. -/
theorem wfTok_raw {c : Char} (h : wfTok (.raw c) = true) :
    31 < c.toNat ∧ c.toNat < 127 ∧ c ≠ '"' ∧ c ≠ '\\' := by
  unfold wfTok at h
  simp only [Bool.and_eq_true, decide_eq_true_eq, bne_iff_ne, ne_eq] at h
  exact ⟨h.1.1.1, h.1.1.2, h.1.2, h.2⟩

/-- Decomposition of a well-formed two-character escape token. -/
theorem wfTok_esc {c : Char} (h : wfTok (.esc c) = true) :
    c = '"' ∨ c = '\\' ∨ c = '/' ∨ c = 'b' ∨ c = 'f' ∨ c = 'n' ∨ c = 'r' ∨ c = 't' := by
  unfold wfTok at h
  simp only [Bool.or_eq_true, decide_eq_true_eq] at h
  tauto

/-- Decomposition of a well-formed `\uXXXX` token. -/
theorem wfTok_uesc {a b c d : Char} (h : wfTok (.uesc a b c d) = true) :
    isHexDigit a = true ∧ isHexDigit b = true ∧ isHexDigit c = true ∧
      isHexDigit d = true := by
  unfold wfTok at h
  simp only [Bool.and_eq_true] at h
  exact ⟨h.1.1.1.1, h.1.1.1.2, h.1.1.2, h.1.2⟩

theorem scanStr_cons_quote (s : List Char) (i : Nat) :
    scanStr ('"' :: s) i = .ok i := by
  rw [scanStr.eq_def]
  simp

theorem scanStr_cons_backslash (c : Char) (s : List Char) (i : Nat) :
    scanStr ('\\' :: c :: s) i = scanStr s (i + 2) := by
  rw [scanStr.eq_def]
  simp

theorem scanStr_cons_other {c : Char} (hq : ¬ c = '"') (hb : ¬ c = '\\')
    (s : List Char) (i : Nat) :
    scanStr (c :: s) i = scanStr s (i + 1) := by
  rw [scanStr.eq_def]
  simp [hq, hb]

/-- The scan loop walks over one well-formed token without stopping: a raw
character is consumed alone, an escape's backslash skips two characters,
and the four hex digits of a `\uXXXX` are plain characters. -/
theorem scanStr_tok (tok : StrTok) (htok : wfTok tok = true) (s : List Char) (i : Nat) :
    scanStr (tokText tok ++ s) i = scanStr s (i + (tokText tok).length) := by
  cases tok with
  | raw c =>
    obtain ⟨_, _, hq, hb⟩ := wfTok_raw htok
    simp only [tokText, List.cons_append, List.nil_append, List.length_cons,
      List.length_nil]
    rw [scanStr_cons_other hq hb]
  | esc c =>
    simp only [tokText, List.cons_append, List.nil_append, List.length_cons,
      List.length_nil]
    rw [scanStr_cons_backslash]
  | uesc a b c d =>
    obtain ⟨ha, hb, hc, hd⟩ := wfTok_uesc htok
    simp only [tokText, List.cons_append, List.nil_append, List.length_cons,
      List.length_nil]
    rw [scanStr_cons_backslash,
      scanStr_cons_other (hexDigit_ne_quote ha) (hexDigit_ne_backslash ha),
      scanStr_cons_other (hexDigit_ne_quote hb) (hexDigit_ne_backslash hb),
      scanStr_cons_other (hexDigit_ne_quote hc) (hexDigit_ne_backslash hc),
      scanStr_cons_other (hexDigit_ne_quote hd) (hexDigit_ne_backslash hd)]

theorem flatText_cons (tok : StrTok) (toks : List StrTok) :
    flatText (tok :: toks) = tokText tok ++ flatText toks := by
  simp [flatText]

theorem flatVal_cons (tok : StrTok) (toks : List StrTok) :
    flatVal (tok :: toks) = tokVal tok ++ flatVal toks := by
  simp [flatVal]

theorem scanStr_flat (toks : List StrTok) (h : ∀ tok ∈ toks, wfTok tok = true)
    (s : List Char) (i : Nat) :
    scanStr (flatText toks ++ s) i = scanStr s (i + (flatText toks).length) := by
  induction toks generalizing i with
  | nil => simp [flatText]
  | cons tok toks' ih =>
    rw [flatText_cons, List.append_assoc, scanStr_tok tok (h tok (by simp)),
      ih (fun t ht => h t (by simp [ht])), List.length_append, Nat.add_assoc]

/-- Every character of a well-formed token's text is ASCII. -/
theorem tokText_ascii (tok : StrTok) (htok : wfTok tok = true) :
    ∀ c ∈ tokText tok, c.toNat < 128 := by
  cases tok with
  | raw c =>
    obtain ⟨_, h2, _, _⟩ := wfTok_raw htok
    intro x hx
    simp [tokText] at hx
    subst hx
    omega
  | esc c =>
    intro x hx
    simp [tokText] at hx
    rcases hx with rfl | rfl
    · decide
    · rcases wfTok_esc htok with rfl | rfl | rfl | rfl | rfl | rfl | rfl | rfl <;> decide
  | uesc a b c d =>
    obtain ⟨ha, hb, hc, hd⟩ := wfTok_uesc htok
    intro x hx
    simp [tokText] at hx
    rcases hx with rfl | rfl | rfl | rfl | rfl | rfl
    · decide
    · decide
    · exact hexDigit_ascii ha
    · exact hexDigit_ascii hb
    · exact hexDigit_ascii hc
    · exact hexDigit_ascii hd

theorem utf8Bytes_ascii {c : Char} (h : c.toNat < 128) : utf8Bytes c = [c.toNat] := by
  simp [utf8Bytes, h]

theorem utf8Encode_ascii {s : List Char} (h : ∀ c ∈ s, c.toNat < 128) :
    utf8Encode s = s.map Char.toNat := by
  induction s with
  | nil => rfl
  | cons c t ih =>
    simp only [utf8Encode, List.map_cons, List.flatten_cons] at *
    rw [utf8Bytes_ascii (h c (by simp)), ih (fun x hx => h x (by simp [hx]))]
    rfl

theorem prependRes_prependRes (cs ds : List Char) (r : Except PyErr (List Char)) :
    prependRes cs (prependRes ds r) = prependRes (cs ++ ds) r := by
  cases r <;> simp [prependRes]

theorem ueRun_cons_ok {st : UEState} {b : Nat} {cs : List Char} {st2 : UEState}
    (h : ueStep st b = .ok (cs, st2)) (t : List Nat) :
    ueRun st (b :: t) = prependRes cs (ueRun st2 t) := by
  rw [ueRun, h]
  cases hr : ueRun st2 t <;> simp [prependRes, hr]

/-- One well-formed token's bytes pass through the codec loop as the
token's value, leaving the state at `normal`. -/
theorem ueRun_tok (tok : StrTok) (htok : wfTok tok = true) (bs : List Nat) :
    ueRun .normal ((tokText tok).map Char.toNat ++ bs) =
      prependRes (tokVal tok) (ueRun .normal bs) := by
  cases tok with
  | raw c =>
    obtain ⟨h1, _, _, hb⟩ := wfTok_raw htok
    have hne : c.toNat ≠ 92 := fun he => hb (char_eq_of_toNat_eq (by rw [he]; rfl))
    have hstep : ueStep .normal c.toNat = .ok ([c], .normal) := by
      simp [ueStep, ueNormal, hne, Char.ofNat_toNat]
    simp only [tokText, List.map_cons, List.map_nil, List.cons_append, List.nil_append]
    rw [ueRun_cons_ok hstep]
    simp [tokVal]
  | esc c =>
    have hstep2 : ueStep .esc c.toNat = .ok (escCharVal c, .normal) := by
      rcases wfTok_esc htok with rfl | rfl | rfl | rfl | rfl | rfl | rfl | rfl <;> rfl
    simp only [tokText, List.map_cons, List.map_nil, List.cons_append, List.nil_append]
    rw [ueRun_cons_ok (show ueStep .normal ('\\'.toNat) = .ok ([], .esc) from rfl),
      ueRun_cons_ok hstep2, prependRes_prependRes]
    rfl
  | uesc a b c d =>
    obtain ⟨ha, hb, hc, hd⟩ := wfTok_uesc htok
    have sa := hexVal_eq_of_isHexDigit ha
    have sb := hexVal_eq_of_isHexDigit hb
    have sc := hexVal_eq_of_isHexDigit hc
    have sd := hexVal_eq_of_isHexDigit hd
    have h1 : ueStep (.hex false 4 0) a.toNat = .ok ([], .hex false 3 (hexCharVal a)) := by
      simp [ueStep, sa]
    have h2 : ueStep (.hex false 3 (hexCharVal a)) b.toNat =
        .ok ([], .hex false 2 (hexCharVal a * 16 + hexCharVal b)) := by
      simp [ueStep, sb]
    have h3 : ueStep (.hex false 2 (hexCharVal a * 16 + hexCharVal b)) c.toNat =
        .ok ([], .hex false 1 ((hexCharVal a * 16 + hexCharVal b) * 16 + hexCharVal c)) := by
      simp [ueStep, sc]
    have h4 : ueStep (.hex false 1 ((hexCharVal a * 16 + hexCharVal b) * 16 + hexCharVal c))
        d.toNat =
        .ok ([Char.ofNat (((hexCharVal a * 16 + hexCharVal b) * 16 + hexCharVal c) * 16
          + hexCharVal d)], .normal) := by
      simp [ueStep, sd]
    simp only [tokText, List.map_cons, List.map_nil, List.cons_append, List.nil_append]
    rw [ueRun_cons_ok (show ueStep .normal ('\\'.toNat) = .ok ([], .esc) from rfl),
      ueRun_cons_ok (show ueStep .esc ('u'.toNat) = .ok ([], .hex false 4 0) from rfl),
      ueRun_cons_ok h1, ueRun_cons_ok h2, ueRun_cons_ok h3, ueRun_cons_ok h4]
    rw [prependRes_prependRes, prependRes_prependRes, prependRes_prependRes,
      prependRes_prependRes, prependRes_prependRes]
    have : (((hexCharVal a * 16 + hexCharVal b) * 16 + hexCharVal c) * 16 + hexCharVal d)
        = hexCharVal a * 4096 + hexCharVal b * 256 + hexCharVal c * 16 + hexCharVal d := by
      ring
    rw [this]
    rfl

theorem ueRun_flat_append (toks : List StrTok) (h : ∀ tok ∈ toks, wfTok tok = true)
    (bs : List Nat) :
    ueRun .normal ((flatText toks).map Char.toNat ++ bs) =
      prependRes (flatVal toks) (ueRun .normal bs) := by
  induction toks with
  | nil =>
    cases hr : ueRun .normal bs <;> simp [flatText, flatVal, prependRes, hr]
  | cons tok toks' ih =>
    rw [flatText_cons, List.map_append, List.append_assoc,
      ueRun_tok tok (h tok (by simp)), ih (fun t ht => h t (by simp [ht])),
      prependRes_prependRes, flatVal_cons]

/-- `parse_string` on a quote followed by a well-formed token body and the
closing quote: it returns the token values and the closing quote's
offset. -/
theorem parse_string_tokens (toks : List StrTok) (h : ∀ tok ∈ toks, wfTok tok = true)
    (inp : List Char) (i : Nat) (rest : List Char)
    (hdrop : inp.drop i = '"' :: (flatText toks ++ '"' :: rest)) :
    parse_string inp i = .ok (flatVal toks, i + 1 + (flatText toks).length) := by
  have hq : charAt inp i = .ok '"' := charAt_of_drop hdrop
  have hd1 : inp.drop (i + 1) = flatText toks ++ '"' :: rest := drop_succ_of_drop hdrop
  have hascii : ∀ c ∈ flatText toks, c.toNat < 128 := by
    intro c hcmem
    simp only [flatText, List.mem_flatten, List.mem_map] at hcmem
    obtain ⟨l, ⟨tok, htokmem, rfl⟩, hcl⟩ := hcmem
    exact tokText_ascii tok (h tok htokmem) c hcl
  have hue : unicodeEscape (utf8Encode (flatText toks)) = .ok (flatVal toks) := by
    rw [utf8Encode_ascii hascii]
    have h2 := ueRun_flat_append toks h []
    rw [List.append_nil] at h2
    unfold unicodeEscape
    rw [h2]
    simp [prependRes, ueRun, ueFinish]
  have harith : i + 1 + (flatText toks).length - (i + 1) = (flatText toks).length := by
    omega
  unfold parse_string
  rw [hq]
  simp only [hd1, scanStr_flat toks h ('"' :: rest) (i + 1), scanStr_cons_quote,
    harith, List.take_left, hue]
  simp

theorem countDots_append (a b : List Char) :
    countDots (a ++ b) = countDots a + countDots b := by
  simp [countDots, List.countP_append]

theorem countDots_of_digits {ds : List Char} (h : ∀ d ∈ ds, d.isDigit = true) :
    countDots ds = 0 := by
  induction ds with
  | nil => rfl
  | cons d t ih =>
    have hd := h d (by simp)
    have : ¬ d = '.' := by
      intro he
      rw [he] at hd
      simp [Char.isDigit] at hd
    rw [countDots_cons, if_neg this, ih (fun x hx => h x (by simp [hx]))]

theorem dotOk_of_digits {ds : List Char} (h : ∀ d ∈ ds, d.isDigit = true) :
    dotOk ds = true := by
  induction ds with
  | nil => rfl
  | cons d t ih =>
    have hd := h d (by simp)
    have hne : ¬ d = '.' := by
      intro he
      rw [he] at hd
      simp [Char.isDigit] at hd
    rw [dotOk_nondot_cons _ hne]
    exact ih (fun x hx => h x (by simp [hx]))

/-! ### Round-trip infrastructure -/

/-- Structural induction over the nested `Json` type, with membership
hypotheses for container children. -/
theorem json_strong_induction (P : Json → Prop)
    (hnull : P .null) (hbool : ∀ b, P (.bool b)) (hint : ∀ n, P (.int n))
    (hfloat : ∀ ip fd, P (.float ip fd)) (hstr : ∀ s, P (.str s))
    (harr : ∀ xs, (∀ x ∈ xs, P x) → P (.arr xs))
    (hobj : ∀ kvs, (∀ kv ∈ kvs, P kv.2) → P (.obj kvs)) :
    ∀ v, P v := by
  have key : ∀ n v, sizeOf v ≤ n → P v := by
    intro n
    induction n with
    | zero => intro v hv; cases v <;> simp at hv
    | succ n ih =>
      intro v hv
      cases v with
      | null => exact hnull
      | bool b => exact hbool b
      | int m => exact hint m
      | float ip fd => exact hfloat ip fd
      | str s => exact hstr s
      | arr xs =>
        refine harr xs (fun x hx => ih x ?_)
        have hm := List.sizeOf_lt_of_mem hx
        simp only [Json.arr.sizeOf_spec] at hv
        omega
      | obj kvs =>
        refine hobj kvs (fun kv hkv => ih kv.2 ?_)
        have h1 := List.sizeOf_lt_of_mem hkv
        have h2 : sizeOf kv.2 < sizeOf kv := by
          obtain ⟨k, v2⟩ := kv
          simp only [Prod.mk.sizeOf_spec]
          omega
        simp only [Json.obj.sizeOf_spec] at hv
        omega
  exact fun v => key (sizeOf v) v le_rfl

theorem digitChar_isDigit {d : Nat} (h : d < 10) : (digitChar d).isDigit = true := by
  interval_cases d <;> decide

theorem digitChar_toNat {d : Nat} (h : d < 10) : (digitChar d).toNat = 48 + d := by
  interval_cases d <;> decide

theorem digitChar_val {d : Nat} (h : d < 10) : (digitChar d).toNat - 48 = d := by
  rw [digitChar_toNat h]
  omega

theorem isDigit_toNat {c : Char} (h : c.isDigit = true) :
    48 ≤ c.toNat ∧ c.toNat ≤ 57 := by
  simp [Char.isDigit] at h
  exact h

theorem isNumChar_of_isDigit {c : Char} (h : c.isDigit = true) : isNumChar c = true := by
  simp [isNumChar, h]

theorem natOfDigits_append_singleton (a : List Char) (c : Char) :
    natOfDigits (a ++ [c]) = natOfDigits a * 10 + (c.toNat - 48) := by
  simp [natOfDigits, List.foldl_append]

/-- The decimal rendering of a natural number consists of digits, is
nonempty, and evaluates back to the number through `int()`. -/
theorem natToDigits_spec (n : Nat) :
    (∀ d ∈ natToDigits n, d.isDigit = true) ∧ natToDigits n ≠ [] ∧
      natOfDigits (natToDigits n) = n := by
  induction n using Nat.strong_induction_on with
  | _ n ih =>
    by_cases h : n < 10
    · rw [natToDigits, if_pos h]
      refine ⟨?_, by simp, ?_⟩
      · intro d hd
        simp at hd
        subst hd
        exact digitChar_isDigit h
      · rw [show ([digitChar n] : List Char) = [] ++ [digitChar n] from rfl,
          natOfDigits_append_singleton, digitChar_val h]
        simp [natOfDigits]
    · rw [natToDigits, if_neg h]
      have hdiv : n / 10 < n := Nat.div_lt_self (by omega) (by omega)
      obtain ⟨ha, _, hc⟩ := ih (n / 10) hdiv
      have hmod : n % 10 < 10 := Nat.mod_lt _ (by omega)
      refine ⟨?_, by simp, ?_⟩
      · intro d hd
        rcases List.mem_append.mp hd with hd1 | hd2
        · exact ha d hd1
        · simp at hd2
          subst hd2
          exact digitChar_isDigit hmod
      · rw [natOfDigits_append_singleton, hc, digitChar_val hmod]
        omega

theorem natToDigits_all_num (n : Nat) : ∀ d ∈ natToDigits n, isNumChar d = true :=
  fun d hd => isNumChar_of_isDigit ((natToDigits_spec n).1 d hd)

theorem natToDigits_no_dot (n : Nat) : countDots (natToDigits n) = 0 :=
  countDots_of_digits (natToDigits_spec n).1

/-! ### The encoder's string escaping round-trips -/

theorem hexDigitChar_isHex {d : Nat} (h : d < 16) :
    isHexDigit (hexDigitChar d) = true := by
  interval_cases d <;> decide

theorem hexDigitChar_val {d : Nat} (h : d < 16) :
    hexCharVal (hexDigitChar d) = d := by
  interval_cases d <;> decide

theorem char_toNat_valid (c : Char) : c.toNat < 55296 ∨ 57344 ≤ c.toNat := by
  rcases c.valid with h | ⟨h1, _⟩
  · exact Or.inl h
  · exact Or.inr h1

theorem char_toNat_lt (c : Char) : c.toNat < 1114112 := by
  have he : c.toNat = c.val.toNat := rfl
  rcases c.valid with h | ⟨_, h2⟩ <;> omega

/-- The escape the encoder picks for a BMP scalar is well formed. -/
theorem escapeChar_wf {c : Char} (h : c.toNat < 65536) :
    wfTok (escapeChar c) = true := by
  unfold escapeChar
  split_ifs with h1 h2 h3 h4 h5 h6 h7 h8
  · subst h1; decide
  · subst h2; decide
  · subst h3; decide
  · subst h4; decide
  · subst h5; decide
  · subst h6; decide
  · subst h7; decide
  · unfold wfTok
    simp only [Bool.and_eq_true, decide_eq_true_eq, bne_iff_ne, ne_eq]
    exact ⟨⟨⟨h8.1, h8.2⟩, h1⟩, h2⟩
  · unfold wfTok
    have q1 : c.toNat / 4096 % 16 < 16 := Nat.mod_lt _ (by omega)
    have q2 : c.toNat / 256 % 16 < 16 := Nat.mod_lt _ (by omega)
    have q3 : c.toNat / 16 % 16 < 16 := Nat.mod_lt _ (by omega)
    have q4 : c.toNat % 16 < 16 := Nat.mod_lt _ (by omega)
    simp only [Bool.and_eq_true, hexDigitChar_isHex q1, hexDigitChar_isHex q2,
      hexDigitChar_isHex q3, hexDigitChar_isHex q4, hexDigitChar_val q1,
      hexDigitChar_val q2, hexDigitChar_val q3, hexDigitChar_val q4,
      decide_eq_true_eq, true_and]
    have hrec : c.toNat / 4096 % 16 * 4096 + c.toNat / 256 % 16 * 256
        + c.toNat / 16 % 16 * 16 + c.toNat % 16 = c.toNat := by
      omega
    rw [hrec]
    exact char_toNat_valid c

/-- The escape the encoder picks decodes back to the character itself. -/
theorem escapeChar_val {c : Char} (h : c.toNat < 65536) :
    tokVal (escapeChar c) = [c] := by
  unfold escapeChar
  split_ifs with h1 h2 h3 h4 h5 h6 h7 h8
  · subst h1; rfl
  · subst h2; rfl
  · subst h3; rfl
  · subst h4; rfl
  · subst h5; rfl
  · subst h6; rfl
  · subst h7; rfl
  · rfl
  · simp only [tokVal]
    have q1 : c.toNat / 4096 % 16 < 16 := Nat.mod_lt _ (by omega)
    have q2 : c.toNat / 256 % 16 < 16 := Nat.mod_lt _ (by omega)
    have q3 : c.toNat / 16 % 16 < 16 := Nat.mod_lt _ (by omega)
    have q4 : c.toNat % 16 < 16 := Nat.mod_lt _ (by omega)
    rw [hexDigitChar_val q1, hexDigitChar_val q2, hexDigitChar_val q3, hexDigitChar_val q4]
    have hrec : c.toNat / 4096 % 16 * 4096 + c.toNat / 256 % 16 * 256
        + c.toNat / 16 % 16 * 16 + c.toNat % 16 = c.toNat := by
      omega
    rw [hrec, Char.ofNat_toNat]

theorem escape_toks_wf {s : List Char} (h : ∀ c ∈ s, c.toNat < 65536) :
    ∀ tok ∈ s.map escapeChar, wfTok tok = true := by
  intro tok htok
  simp only [List.mem_map] at htok
  obtain ⟨c, hc, rfl⟩ := htok
  exact escapeChar_wf (h c hc)

theorem flatVal_escape {s : List Char} (h : ∀ c ∈ s, c.toNat < 65536) :
    flatVal (s.map escapeChar) = s := by
  induction s with
  | nil => rfl
  | cons c t ih =>
    rw [List.map_cons, flatVal_cons, escapeChar_val (h c (by simp)),
      ih (fun x hx => h x (by simp [hx]))]
    rfl

/-- `parse_string` on the reference encoder's rendering of a BMP string:
it returns the string itself and the offset of the closing quote. -/
theorem parse_encodeString {s : List Char} (h : ∀ c ∈ s, c.toNat < 65536)
    (inp : List Char) (i : Nat) (rest : List Char)
    (hdrop : inp.drop i = encodeString s ++ rest) :
    parse_string inp i = .ok (s, i + (encodeString s).length - 1) := by
  have hdrop2 : inp.drop i = '"' :: (flatText (s.map escapeChar) ++ '"' :: rest) := by
    rw [hdrop, encodeString]
    simp
  rw [parse_string_tokens (s.map escapeChar) (escape_toks_wf h) inp i rest hdrop2,
    flatVal_escape h]
  have : (encodeString s).length = (flatText (s.map escapeChar)).length + 2 := by
    simp [encodeString]
  rw [this]
  have harith : i + 1 + (flatText (s.map escapeChar)).length =
      i + ((flatText (s.map escapeChar)).length + 2) - 1 := by
    omega
  rw [harith]

/-! ### Encoder shape facts and loop helpers -/

theorem drop_add_of_drop {inp t : List Char} {i : Nat} (l : List Char)
    (h : inp.drop i = l ++ t) : inp.drop (i + l.length) = t := by
  have h2 : (inp.drop i).drop l.length = inp.drop (i + l.length) := by
    rw [List.drop_drop]
  rw [← h2, h, List.drop_left]

theorem numGuard_cons {c : Char} (v : Json) (r : List Char) (hc : isNumChar c = false) :
    numGuard v (c :: r) := by
  cases v <;> first | trivial | exact ⟨c, r, rfl, hc⟩

theorem isPySpace_false_of_ge {c : Char} (h : 48 ≤ c.toNat) : isPySpace c = false := by
  by_contra hcon
  have hcon2 : isPySpace c = true := by
    revert hcon
    cases isPySpace c <;> simp
  have hcase : c = ' ' ∨ c = '\t' ∨ c = '\n' ∨ c = '\x0d' ∨ c = '\x0b' ∨ c = '\x0c' := by
    simp only [isPySpace, Bool.or_eq_true, decide_eq_true_eq] at hcon2
    tauto
  rcases hcase with rfl | rfl | rfl | rfl | rfl | rfl <;> exact absurd h (by decide)

/-- A digit character is not whitespace, not a structural character, and
not the first character of a keyword — the dispatcher sends it to the
number parser. -/
theorem digit_head_props {c : Char} (h : c.isDigit = true) :
    isPySpace c = false ∧ c ≠ ']' ∧ c ≠ '}' ∧ c ≠ ',' ∧ c ≠ ':' ∧
      c ≠ '{' ∧ c ≠ '[' ∧ c ≠ '"' ∧ c ≠ 't' ∧ c ≠ 'f' ∧ c ≠ 'n' := by
  obtain ⟨h1, h2⟩ := isDigit_toNat h
  refine ⟨isPySpace_false_of_ge h1, ?_, ?_, ?_, ?_, ?_, ?_, ?_, ?_, ?_, ?_⟩ <;>
    (apply char_ne_of_toNat_ne; intro he; rw [he] at h1 h2) <;> revert h1 h2 <;> decide

/-- The encoding of a value is nonempty and begins with `n`, `t`, `f`, a
digit, `"`, `[` or `{` — in particular not with whitespace and not with a
closing bracket, comma or colon. -/
theorem encodeJson_head (v : Json) :
    ∃ c t, encodeJson v = c :: t ∧ isPySpace c = false ∧
      c ≠ ']' ∧ c ≠ '}' ∧ c ≠ ',' ∧ c ≠ ':' := by
  cases v with
  | null => exact ⟨'n', _, rfl, by decide, by decide, by decide, by decide, by decide⟩
  | bool b =>
    cases b
    · refine ⟨'f', "alse".toList, ?_, by decide, by decide, by decide, by decide, by decide⟩
      rw [encodeJson]
      rfl
    · refine ⟨'t', "rue".toList, ?_, by decide, by decide, by decide, by decide, by decide⟩
      rw [encodeJson]
      rfl
  | int n =>
    by_cases hn : n < 0
    · refine ⟨'-', natToDigits n.natAbs, ?_, by decide, by decide, by decide, by decide,
        by decide⟩
      rw [encodeJson, if_pos hn]
    · obtain ⟨d, t, hd⟩ : ∃ d t, natToDigits n.toNat = d :: t := by
        cases he : natToDigits n.toNat with
        | nil => exact absurd he (natToDigits_spec n.toNat).2.1
        | cons d t => exact ⟨d, t, rfl⟩
      have hdig : d.isDigit = true := (natToDigits_spec n.toNat).1 d (by rw [hd]; simp)
      obtain ⟨p1, p2, p3, p4, p5, -⟩ := digit_head_props hdig
      exact ⟨d, t, by rw [encodeJson, if_neg hn, hd], p1, p2, p3, p4, p5⟩
  | float ip fd =>
    obtain ⟨d, t, hd⟩ : ∃ d t, natToDigits ip = d :: t := by
      cases he : natToDigits ip with
      | nil => exact absurd he (natToDigits_spec ip).2.1
      | cons d t => exact ⟨d, t, rfl⟩
    have hdig : d.isDigit = true := (natToDigits_spec ip).1 d (by rw [hd]; simp)
    obtain ⟨p1, p2, p3, p4, p5, -⟩ := digit_head_props hdig
    refine ⟨d, t ++ '.' :: fd.map digitChar, ?_, p1, p2, p3, p4, p5⟩
    rw [encodeJson, hd]
    rfl
  | str s =>
    refine ⟨'"', flatText (s.map escapeChar) ++ ['"'], ?_, by decide, by decide, by decide,
      by decide, by decide⟩
    rw [encodeJson, encodeString]
    rfl
  | arr xs =>
    refine ⟨'[', encodeElems xs ++ [']'], ?_, by decide, by decide, by decide, by decide,
      by decide⟩
    rw [encodeJson]
    rfl
  | obj kvs =>
    refine ⟨'{', encodeMembers kvs ++ ['}'], ?_, by decide, by decide, by decide, by decide,
      by decide⟩
    rw [encodeJson]
    rfl

theorem encodeJson_ne_nil (v : Json) : encodeJson v ≠ [] := by
  obtain ⟨c, t, he, -⟩ := encodeJson_head v
  rw [he]
  simp

theorem encodeJson_length_pos (v : Json) : 0 < (encodeJson v).length := by
  obtain ⟨c, t, he, -⟩ := encodeJson_head v
  rw [he]
  simp

/-- Terminal loop step of the object parser: at a `}` the loop returns. -/
theorem parse_object_loop_close {inp : List Char} {index : Nat}
    (result : List (List Char × Json)) (fuel : Nat)
    (h : charAt inp index = .ok '}') :
    parse_object_loop inp index result (fuel + 1) = .ok (.obj result, index) := by
  unfold parse_object_loop
  rw [h]
  simp

/-- Terminal loop step of the array parser: at a `]` the loop returns. -/
theorem parse_array_loop_close {inp : List Char} {index : Nat}
    (result : List Json) (fuel : Nat)
    (h : charAt inp index = .ok ']') :
    parse_array_loop inp index result (fuel + 1) = .ok (.arr result, index) := by
  unfold parse_array_loop
  rw [h]
  simp

theorem dictInsert_append {d : List (List Char × Json)} {k : List Char} (v : Json)
    (h : d.any (fun kv => kv.1 == k) = false) : dictInsert d k v = d ++ [(k, v)] := by
  induction d with
  | nil => rfl
  | cons kv t ih =>
    obtain ⟨k2, v2⟩ := kv
    simp only [List.any_cons, Bool.or_eq_false_iff] at h
    rw [dictInsert]
    rw [if_neg (by simpa using h.1), ih h.2]
    rfl

theorem costJson_pos (v : Json) : 1 ≤ costJson v := by
  cases v <;> simp [costJson] <;> omega

theorem sliceOf_of_drop {inp l rest : List Char} {i : Nat} (h : inp.drop i = l ++ rest) :
    sliceOf inp i (i + l.length) = l := by
  rw [sliceOf, h]
  have : i + l.length - i = l.length := by omega
  rw [this, List.take_left]

/-! ### Dispatch -/

theorem _parse_json_at_object {inp : List Char} {index : Nat} (fuel : Nat)
    (hc : charAt inp index = .ok '{') :
    _parse_json inp index (fuel + 1) = parse_object inp index fuel := by
  rw [_parse_json, hc]
  simp

theorem _parse_json_at_array {inp : List Char} {index : Nat} (fuel : Nat)
    (hc : charAt inp index = .ok '[') :
    _parse_json inp index (fuel + 1) = parse_array inp index fuel := by
  rw [_parse_json, hc]
  simp

theorem _parse_json_at_string {inp : List Char} {index : Nat} (fuel : Nat)
    (hc : charAt inp index = .ok '"') :
    _parse_json inp index (fuel + 1) =
      match parse_string inp index with
      | .error e => .error e
      | .ok (s, e) => .ok (.str s, e) := by
  rw [_parse_json, hc]
  simp

theorem _parse_json_at_t {inp : List Char} {index : Nat} (fuel : Nat)
    (hc : charAt inp index = .ok 't') :
    _parse_json inp index (fuel + 1) = parse_true inp index := by
  rw [_parse_json, hc]
  simp

theorem _parse_json_at_n {inp : List Char} {index : Nat} (fuel : Nat)
    (hc : charAt inp index = .ok 'n') :
    _parse_json inp index (fuel + 1) = parse_null inp index := by
  rw [_parse_json, hc]
  simp

theorem _parse_json_at_number {inp : List Char} {index : Nat} {c : Char} (fuel : Nat)
    (hc : charAt inp index = .ok c)
    (h1 : c ≠ '{') (h2 : c ≠ '[') (h3 : c ≠ '"') (h4 : c ≠ 't') (h5 : c ≠ 'f')
    (h6 : c ≠ 'n') :
    _parse_json inp index (fuel + 1) = parse_number inp index := by
  rw [_parse_json, hc]
  simp [h1, h2, h3, h4, h5, h6]

theorem dotOk_append_digits {a b : List Char} (ha : ∀ d ∈ a, d.isDigit = true)
    (hb : ∀ d ∈ b, d.isDigit = true) (hbne : b ≠ []) :
    dotOk (a ++ '.' :: b) = true := by
  induction a with
  | nil =>
    cases b with
    | nil => exact absurd rfl hbne
    | cons e es =>
      rw [List.nil_append, dotOk_dot_cons, Bool.and_eq_true]
      exact ⟨hb e (by simp), dotOk_of_digits hb⟩
  | cons d a' ih =>
    have hd := ha d (by simp)
    have hne : ¬ d = '.' := by
      intro he
      rw [he] at hd
      exact absurd hd (by decide)
    rw [List.cons_append, dotOk_nondot_cons _ hne]
    exact ih (fun x hx => ha x (by simp [hx]))

theorem splitDot_append {a b : List Char} (ha : ∀ d ∈ a, d ≠ '.') :
    splitDot (a ++ '.' :: b) = (a, b) := by
  induction a with
  | nil => simp [splitDot]
  | cons d a' ih =>
    rw [List.cons_append, splitDot, if_neg (ha d (by simp)),
      ih (fun x hx => ha x (by simp [hx]))]

/-! ### Round-trip: scalar cases -/

theorem parsesBack_null : ParsesBack .null := by
  intro _ f hf inp i rest hdrop _
  obtain ⟨f2, rfl⟩ : ∃ f2, f = f2 + 1 := by
    simp [costJson] at hf
    exact ⟨f - 1, by omega⟩
  have hdrop2 : inp.drop i = 'n' :: ('u' :: 'l' :: 'l' :: rest) := hdrop
  have hc := charAt_of_drop hdrop2
  rw [_parse_json_at_n f2 hc]
  have hslice : sliceOf inp i (i + 4) = "null".toList :=
    sliceOf_of_drop (l := "null".toList) hdrop
  have hpn : parse_null inp i = .ok (.null, i + 3) := by
    unfold parse_null
    rw [hc]
    simp [hslice]
  rw [hpn]
  have harith : i + (encodeJson Json.null).length - 1 = i + 3 := by
    show i + (4 : Nat) - 1 = i + 3
    omega
  rw [harith]

theorem parsesBack_true : ParsesBack (.bool true) := by
  intro _ f hf inp i rest hdrop _
  obtain ⟨f2, rfl⟩ : ∃ f2, f = f2 + 1 := by
    simp [costJson] at hf
    exact ⟨f - 1, by omega⟩
  have hdrop2 : inp.drop i = 't' :: ('r' :: 'u' :: 'e' :: rest) := hdrop
  have hc := charAt_of_drop hdrop2
  rw [_parse_json_at_t f2 hc]
  have hslice : sliceOf inp i (i + 4) = "true".toList :=
    sliceOf_of_drop (l := "true".toList) hdrop
  have hpt : parse_true inp i = .ok (.bool true, i + 3) := by
    unfold parse_true
    rw [hc]
    simp [hslice]
  rw [hpt]
  have harith : i + (encodeJson (Json.bool true)).length - 1 = i + 3 := by
    show i + (4 : Nat) - 1 = i + 3
    omega
  rw [harith]

theorem parsesBack_int (n : Int) : ParsesBack (.int n) := by
  intro hwf f hf inp i rest hdrop hguard
  obtain ⟨f2, rfl⟩ : ∃ f2, f = f2 + 1 := by
    simp [costJson] at hf
    exact ⟨f - 1, by omega⟩
  have hn : ¬ n < 0 := by
    simp [wfJson] at hwf
    omega
  have henc : encodeJson (.int n) = natToDigits n.toNat := by
    rw [encodeJson, if_neg hn]
  obtain ⟨hdig, hne, hval⟩ := natToDigits_spec n.toNat
  obtain ⟨d, t, hd⟩ : ∃ d t, natToDigits n.toNat = d :: t := by
    cases he : natToDigits n.toNat with
    | nil => exact absurd he hne
    | cons d t => exact ⟨d, t, rfl⟩
  obtain ⟨c, r, rfl, hcnum⟩ : ∃ c r, rest = c :: r ∧ isNumChar c = false := hguard
  have hdrop2 : inp.drop i = natToDigits n.toNat ++ c :: r := by rw [hdrop, henc]
  have hchar : charAt inp i = .ok d := charAt_of_drop (by rw [hdrop2, hd]; rfl)
  have hddig : d.isDigit = true := hdig d (by rw [hd]; simp)
  obtain ⟨-, -, -, -, -, q1, q2, q3, q4, q5, q6⟩ := digit_head_props hddig
  rw [_parse_json_at_number f2 hchar q1 q2 q3 q4 q5 q6]
  have hpn := parse_number_ok inp i (natToDigits n.toNat) c r hdrop2
    (fun x hx => by rw [hd] at hx; injection hx with hx; exact hx ▸ hddig)
    hne (natToDigits_all_num n.toNat) hcnum (dotOk_of_digits hdig)
    (by rw [natToDigits_no_dot]; omega)
  rw [hpn, henc]
  have hnv : numValue (natToDigits n.toNat) = .int n := by
    rw [numValue, if_neg (by rw [natToDigits_no_dot]; omega), hval]
    congr 1
    omega
  rw [hnv]

theorem parsesBack_float (ip : Nat) (fd : List Nat) : ParsesBack (.float ip fd) := by
  intro hwf f hf inp i rest hdrop hguard
  obtain ⟨f2, rfl⟩ : ∃ f2, f = f2 + 1 := by
    simp [costJson] at hf
    exact ⟨f - 1, by omega⟩
  have hwf2 : fd ≠ [] ∧ ∀ x ∈ fd, x < 10 := by
    simp [wfJson, List.isEmpty_iff] at hwf
    exact hwf
  have henc : encodeJson (.float ip fd) = natToDigits ip ++ '.' :: fd.map digitChar := by
    rw [encodeJson]
  obtain ⟨hdig, hne, hval⟩ := natToDigits_spec ip
  obtain ⟨d, t, hd⟩ : ∃ d t, natToDigits ip = d :: t := by
    cases he : natToDigits ip with
    | nil => exact absurd he hne
    | cons d t => exact ⟨d, t, rfl⟩
  obtain ⟨c, r, rfl, hcnum⟩ : ∃ c r, rest = c :: r ∧ isNumChar c = false := hguard
  have hfd_dig : ∀ x ∈ fd.map digitChar, x.isDigit = true := by
    intro x hx
    simp only [List.mem_map] at hx
    obtain ⟨dd, hdd, rfl⟩ := hx
    exact digitChar_isDigit (hwf2.2 dd hdd)
  have hlex_num : ∀ x ∈ natToDigits ip ++ '.' :: fd.map digitChar, isNumChar x = true := by
    intro x hx
    rcases List.mem_append.mp hx with h1 | h2
    · exact isNumChar_of_isDigit (hdig x h1)
    · rcases List.mem_cons.mp h2 with rfl | h3
      · decide
      · exact isNumChar_of_isDigit (hfd_dig x h3)
  have hfd_ne : fd.map digitChar ≠ [] := by
    intro he
    exact hwf2.1 (List.map_eq_nil_iff.mp he)
  have hdrop2 : inp.drop i = (natToDigits ip ++ '.' :: fd.map digitChar) ++ c :: r := by
    rw [hdrop, henc]
  have hchar : charAt inp i = .ok d :=
    charAt_of_drop (by rw [hdrop2, hd]; rfl)
  have hddig : d.isDigit = true := hdig d (by rw [hd]; simp)
  obtain ⟨-, -, -, -, -, q1, q2, q3, q4, q5, q6⟩ := digit_head_props hddig
  rw [_parse_json_at_number f2 hchar q1 q2 q3 q4 q5 q6]
  have hdotOk : dotOk (natToDigits ip ++ '.' :: fd.map digitChar) = true := by
    apply dotOk_append_digits hdig hfd_dig hfd_ne
  have hcount : countDots (natToDigits ip ++ '.' :: fd.map digitChar) = 1 := by
    simp [countDots_append, natToDigits_no_dot, countDots_cons,
      countDots_of_digits hfd_dig]
  have hpn := parse_number_ok inp i (natToDigits ip ++ '.' :: fd.map digitChar) c r hdrop2
    (fun x hx => by
      rw [hd] at hx
      simp only [List.cons_append, List.head?_cons, Option.some.injEq] at hx
      exact hx ▸ hddig)
    (by simp) hlex_num hcnum hdotOk (by omega)
  rw [hpn, henc]
  have hnv : numValue (natToDigits ip ++ '.' :: fd.map digitChar) = .float ip fd := by
    rw [numValue, if_pos (by omega), floatOfLexeme,
      splitDot_append (fun x hx => by
        have := isDigit_toNat (hdig x hx)
        exact char_ne_of_toNat_ne (by intro he; rw [he] at this; revert this; decide)) ]
    simp only
    rw [hval]
    congr 1
    rw [List.map_map]
    have : ∀ x ∈ fd, ((fun c => c.toNat - 48) ∘ digitChar) x = x := by
      intro x hx
      simp [Function.comp, digitChar_val (hwf2.2 x hx)]
    rw [List.map_congr_left this]
    simp
  rw [hnv]

theorem parsesBack_str (s : List Char) : ParsesBack (.str s) := by
  intro hwf f hf inp i rest hdrop _
  obtain ⟨f2, rfl⟩ : ∃ f2, f = f2 + 1 := by
    simp [costJson] at hf
    exact ⟨f - 1, by omega⟩
  have hbmp : ∀ c ∈ s, c.toNat < 65536 := by
    simp [wfJson] at hwf
    exact hwf
  have henc : encodeJson (.str s) = encodeString s := by rw [encodeJson]
  have hdrop2 : inp.drop i = encodeString s ++ rest := by rw [hdrop, henc]
  have hchar : charAt inp i = .ok '"' := by
    apply charAt_of_drop
    rw [hdrop2, encodeString]
    rfl
  rw [_parse_json_at_string f2 hchar, parse_encodeString hbmp inp i rest hdrop2, henc]

/-! ### Round-trip: container loops -/

theorem encodeElems_cons_cons (x y : Json) (ys : List Json) :
    encodeElems (x :: y :: ys) = encodeJson x ++ ',' :: encodeElems (y :: ys) := by
  rw [encodeElems]
  simp

theorem encodeElems_single (x : Json) : encodeElems [x] = encodeJson x := by
  rw [encodeElems]

/-- A nonempty element list's rendering starts like its first element's
rendering: with a non-space character that is no closing bracket. -/
theorem encodeElems_head (y : Json) (ys : List Json) :
    ∃ c t, encodeElems (y :: ys) = c :: t ∧ isPySpace c = false ∧ c ≠ ']' ∧ c ≠ '}' := by
  obtain ⟨c, t, henc, hs, h1, h2, -, -⟩ := encodeJson_head y
  cases ys with
  | nil => exact ⟨c, t, by rw [encodeElems_single, henc], hs, h1, h2⟩
  | cons z zs =>
    exact ⟨c, t ++ ',' :: encodeElems (z :: zs),
      by rw [encodeElems_cons_cons, henc]; rfl, hs, h1, h2⟩

theorem parse_array_loop_encode :
    ∀ (xs : List Json), xs ≠ [] → (∀ x ∈ xs, ParsesBack x) → wfElems xs = true →
    ∀ (f : Nat), costElems xs ≤ f →
    ∀ (inp : List Char) (i : Nat) (c0 : Char) (rest : List Char) (acc : List Json),
      inp.drop i = c0 :: (encodeElems xs ++ ']' :: rest) → c0 ≠ ']' →
      parse_array_loop inp i acc f =
        .ok (.arr (acc ++ xs), i + 1 + (encodeElems xs).length) := by
  intro xs
  induction xs with
  | nil => intro h; exact absurd rfl h
  | cons x xs' ih =>
    intro _ hPB hwf f hcost inp i c0 rest acc hdrop hc0
    have hcost2 : 1 + costJson x + costElems xs' ≤ f := by
      rw [costElems] at hcost
      omega
    have hcostx : 1 ≤ costJson x := costJson_pos x
    have hcoste : 1 ≤ costElems xs' := by cases xs' <;> simp [costElems] <;> omega
    obtain ⟨fl, rfl⟩ : ∃ fl, f = fl + 1 := ⟨f - 1, by omega⟩
    have hwx : wfJson x = true ∧ wfElems xs' = true := by
      rw [wfElems, Bool.and_eq_true] at hwf
      exact hwf
    have hchar : charAt inp i = .ok c0 := charAt_of_drop hdrop
    obtain ⟨cx, tx, hex, hsx, -, -, -, -⟩ := encodeJson_head x
    have hLx : 1 ≤ (encodeJson x).length := encodeJson_length_pos x
    cases xs' with
    | nil =>
      rw [encodeElems_single] at hdrop ⊢
      have hdropS : inp.drop (i + 1) = encodeJson x ++ ']' :: rest :=
        drop_succ_of_drop hdrop
      have hskip : skip_whitespace inp (i + 1) = i + 1 :=
        skip_whitespace_of_not_space (by rw [hdropS, hex]; rfl) hsx
      have hv := hPB x (by simp) hwx.1 fl (by omega) inp (i + 1) (']' :: rest) hdropS
        (numGuard_cons x _ (by decide))
      have hdropC : inp.drop (i + 1 + (encodeJson x).length) = ']' :: rest := by
        have h0 := drop_add_of_drop (c0 :: encodeJson x)
          (by rw [hdrop]; simp : inp.drop i = (c0 :: encodeJson x) ++ ']' :: rest)
        have he : i + (c0 :: encodeJson x).length = i + 1 + (encodeJson x).length := by
          simp only [List.length_cons]
          omega
        rwa [he] at h0
      have harith : i + 1 + (encodeJson x).length - 1 + 1 = i + 1 + (encodeJson x).length := by
        omega
      have hskip2 : skip_whitespace inp (i + 1 + (encodeJson x).length) =
          i + 1 + (encodeJson x).length :=
        skip_whitespace_of_not_space hdropC (by decide)
      have hchar2 : charAt inp (i + 1 + (encodeJson x).length) = .ok ']' :=
        charAt_of_drop hdropC
      obtain ⟨fl2, rfl⟩ : ∃ fl2, fl = fl2 + 1 := ⟨fl - 1, by omega⟩
      rw [parse_array_loop]
      simp only [hchar, if_neg hc0, hskip, hv, harith, hskip2, hchar2]
      rw [if_neg (show ¬((']' : Char) = ',') from by decide),
        if_neg (show ¬((']' : Char) ≠ ']') from by simp),
        parse_array_loop_close (acc ++ [x]) fl2 hchar2]
    | cons y ys =>
      rw [encodeElems_cons_cons] at hdrop ⊢
      simp only [List.append_assoc, List.cons_append] at hdrop
      have hdropS : inp.drop (i + 1) =
          encodeJson x ++ ',' :: (encodeElems (y :: ys) ++ ']' :: rest) :=
        drop_succ_of_drop hdrop
      have hskip : skip_whitespace inp (i + 1) = i + 1 :=
        skip_whitespace_of_not_space (by rw [hdropS, hex]; rfl) hsx
      have hv := hPB x (by simp) hwx.1 fl (by omega) inp (i + 1)
        (',' :: (encodeElems (y :: ys) ++ ']' :: rest)) hdropS
        (numGuard_cons x _ (by decide))
      have hdropC : inp.drop (i + 1 + (encodeJson x).length) =
          ',' :: (encodeElems (y :: ys) ++ ']' :: rest) := by
        have h0 := drop_add_of_drop (c0 :: encodeJson x)
          (by rw [hdrop]; simp :
            inp.drop i = (c0 :: encodeJson x) ++ ',' :: (encodeElems (y :: ys) ++ ']' :: rest))
        have he : i + (c0 :: encodeJson x).length = i + 1 + (encodeJson x).length := by
          simp only [List.length_cons]
          omega
        rwa [he] at h0
      have harith : i + 1 + (encodeJson x).length - 1 + 1 = i + 1 + (encodeJson x).length := by
        omega
      have hskip2 : skip_whitespace inp (i + 1 + (encodeJson x).length) =
          i + 1 + (encodeJson x).length :=
        skip_whitespace_of_not_space hdropC (by decide)
      have hchar2 : charAt inp (i + 1 + (encodeJson x).length) = .ok ',' :=
        charAt_of_drop hdropC
      obtain ⟨cy, ty, hey, hsy, hy1, -⟩ := encodeElems_head y ys
      have hdropP : inp.drop (i + 1 + (encodeJson x).length + 1) =
          encodeElems (y :: ys) ++ ']' :: rest :=
        drop_succ_of_drop hdropC
      have hskip3 : skip_whitespace inp (i + 1 + (encodeJson x).length + 1) =
          i + 1 + (encodeJson x).length + 1 :=
        skip_whitespace_of_not_space (by rw [hdropP, hey]; rfl) hsy
      have hchar3 : charAt inp (i + 1 + (encodeJson x).length + 1) = .ok cy :=
        charAt_of_drop (by rw [hdropP, hey]; rfl)
      have hihres := ih (by simp) (fun z hz => hPB z (by simp [hz])) hwx.2 fl
        (by omega) inp (i + 1 + (encodeJson x).length) ',' rest (acc ++ [x])
        hdropC (by decide)
      rw [parse_array_loop]
      simp only [hchar, if_neg hc0, hskip, hv, harith, hskip2, hchar2, hskip3, hchar3,
        if_true]
      rw [if_neg hy1, hihres]
      simp only [List.append_assoc, List.singleton_append, List.length_append,
        List.length_cons, Except.ok.injEq, Prod.mk.injEq, true_and]
      omega

theorem encodeMembers_single (k : List Char) (v : Json) :
    encodeMembers [(k, v)] = encodeString k ++ ':' :: encodeJson v := by
  rw [encodeMembers]

theorem encodeMembers_cons_cons (k : List Char) (v : Json) (p : List Char × Json)
    (ps : List (List Char × Json)) :
    encodeMembers ((k, v) :: p :: ps) =
      encodeString k ++ ':' :: (encodeJson v ++ ',' :: encodeMembers (p :: ps)) := by
  rw [encodeMembers] <;> simp

/-- A nonempty member list's rendering starts with the opening quote of
its first key. -/
theorem encodeMembers_head (p : List Char × Json) (ps : List (List Char × Json)) :
    ∃ t, encodeMembers (p :: ps) = '"' :: t := by
  obtain ⟨k, v⟩ := p
  cases ps with
  | nil =>
    refine ⟨flatText (k.map escapeChar) ++ ['"'] ++ ':' :: encodeJson v, ?_⟩
    rw [encodeMembers_single, encodeString]
    simp
  | cons q qs =>
    refine ⟨flatText (k.map escapeChar) ++ ['"']
      ++ ':' :: (encodeJson v ++ ',' :: encodeMembers (q :: qs)), ?_⟩
    rw [encodeMembers_cons_cons, encodeString]
    simp

theorem distinctKeys_cons {k : List Char} {v : Json} {t : List (List Char × Json)}
    (h : distinctKeys ((k, v) :: t) = true) :
    (∀ kv ∈ t, (kv.1 == k) = false) ∧ distinctKeys t = true := by
  rw [distinctKeys, Bool.and_eq_true, Bool.not_eq_true'] at h
  refine ⟨?_, h.2⟩
  intro kv hkv
  have h1 := h.1
  rw [List.any_eq_false] at h1
  simpa using h1 kv hkv

theorem wfMembers_cons {k : List Char} {v : Json} {t : List (List Char × Json)}
    (h : wfMembers ((k, v) :: t) = true) :
    (∀ c ∈ k, c.toNat < 65536) ∧ wfJson v = true ∧ wfMembers t = true := by
  rw [wfMembers, Bool.and_eq_true, Bool.and_eq_true] at h
  refine ⟨?_, h.1.2, h.2⟩
  intro c hc
  have := h.1.1
  rw [List.all_eq_true] at this
  simpa using this c hc

theorem parse_object_loop_encode :
    ∀ (kvs : List (List Char × Json)), kvs ≠ [] →
    (∀ kv ∈ kvs, ParsesBack kv.2) → wfMembers kvs = true → distinctKeys kvs = true →
    ∀ (f : Nat), costMembers kvs ≤ f →
    ∀ (inp : List Char) (i : Nat) (c0 : Char) (rest : List Char)
      (acc : List (List Char × Json)),
      inp.drop i = c0 :: (encodeMembers kvs ++ '}' :: rest) → c0 ≠ '}' →
      (∀ kv ∈ kvs, acc.any (fun p => p.1 == kv.1) = false) →
      parse_object_loop inp i acc f =
        .ok (.obj (acc ++ kvs), i + 1 + (encodeMembers kvs).length) := by
  intro kvs
  induction kvs with
  | nil => intro h; exact absurd rfl h
  | cons kv kvs' ih =>
    obtain ⟨k, v⟩ := kv
    intro _ hPB hwf hdk f hcost inp i c0 rest acc hdrop hc0 hfresh
    have hcost2 : 1 + costJson v + costMembers kvs' ≤ f := by
      rw [costMembers] at hcost
      omega
    have hcostv : 1 ≤ costJson v := costJson_pos v
    have hcoste : 1 ≤ costMembers kvs' := by
      cases kvs' with
      | nil => simp [costMembers]
      | cons p ps =>
        obtain ⟨k2, v2⟩ := p
        simp [costMembers]
        omega
    obtain ⟨fl, rfl⟩ : ∃ fl, f = fl + 1 := ⟨f - 1, by omega⟩
    obtain ⟨hkbmp, hwv, hwM⟩ := wfMembers_cons hwf
    obtain ⟨hdk1, hdk2⟩ := distinctKeys_cons hdk
    have hchar : charAt inp i = .ok c0 := charAt_of_drop hdrop
    obtain ⟨cv, tv, hev, hsv, -, -, -, -⟩ := encodeJson_head v
    have hLv : 1 ≤ (encodeJson v).length := encodeJson_length_pos v
    have hLK : 2 ≤ (encodeString k).length := by
      rw [encodeString]
      simp
    have hins : dictInsert acc k v = acc ++ [(k, v)] :=
      dictInsert_append v (hfresh (k, v) (by simp))
    cases kvs' with
    | nil =>
      rw [encodeMembers_single] at hdrop ⊢
      simp only [List.append_assoc, List.cons_append] at hdrop
      have hdropS2 : inp.drop (i + 1) =
          encodeString k ++ (':' :: (encodeJson v ++ '}' :: rest)) :=
        drop_succ_of_drop hdrop
      have hskip : skip_whitespace inp (i + 1) = i + 1 := by
        apply skip_whitespace_of_not_space (c := '"') (t := flatText (k.map escapeChar)
          ++ ['"'] ++ (':' :: (encodeJson v ++ '}' :: rest)))
        · rw [hdropS2, encodeString]
          simp
        · decide
      have hkey := parse_encodeString hkbmp inp (i + 1)
        (':' :: (encodeJson v ++ '}' :: rest)) hdropS2
      have hke : i + 1 + (encodeString k).length - 1 + 1 = i + 1 + (encodeString k).length := by
        omega
      have hdropColon : inp.drop (i + 1 + (encodeString k).length) =
          ':' :: (encodeJson v ++ '}' :: rest) := by
        have h0 := drop_add_of_drop (c0 :: encodeString k)
          (by rw [hdrop]; simp :
            inp.drop i = (c0 :: encodeString k) ++ (':' :: (encodeJson v ++ '}' :: rest)))
        have he : i + (c0 :: encodeString k).length = i + 1 + (encodeString k).length := by
          simp only [List.length_cons]
          omega
        rwa [he] at h0
      have hskipColon : skip_whitespace inp (i + 1 + (encodeString k).length) =
          i + 1 + (encodeString k).length :=
        skip_whitespace_of_not_space hdropColon (by decide)
      have hcharColon : charAt inp (i + 1 + (encodeString k).length) = .ok ':' :=
        charAt_of_drop hdropColon
      have hdropV : inp.drop (i + 1 + (encodeString k).length + 1) =
          encodeJson v ++ '}' :: rest :=
        drop_succ_of_drop hdropColon
      have hskipV : skip_whitespace inp (i + 1 + (encodeString k).length + 1) =
          i + 1 + (encodeString k).length + 1 :=
        skip_whitespace_of_not_space (by rw [hdropV, hev]; rfl) hsv
      have hPBv : ParsesBack v := hPB (k, v) (by simp)
      have hv := hPBv hwv fl (by omega) inp
        (i + 1 + (encodeString k).length + 1) ('}' :: rest) hdropV
        (numGuard_cons v _ (by decide))
      have hveArith : i + 1 + (encodeString k).length + 1 + (encodeJson v).length - 1 + 1 =
          i + 1 + (encodeString k).length + 1 + (encodeJson v).length := by
        omega
      have hdropClose : inp.drop (i + 1 + (encodeString k).length + 1
          + (encodeJson v).length) = '}' :: rest :=
        drop_add_of_drop (encodeJson v) hdropV
      have hskipClose : skip_whitespace inp (i + 1 + (encodeString k).length + 1
          + (encodeJson v).length) = i + 1 + (encodeString k).length + 1
          + (encodeJson v).length :=
        skip_whitespace_of_not_space hdropClose (by decide)
      have hcharClose : charAt inp (i + 1 + (encodeString k).length + 1
          + (encodeJson v).length) = .ok '}' :=
        charAt_of_drop hdropClose
      obtain ⟨fl2, rfl⟩ : ∃ fl2, fl = fl2 + 1 := ⟨fl - 1, by omega⟩
      rw [parse_object_loop]
      simp only [hchar, if_neg hc0, hskip, hkey, hke, hskipColon, hcharColon,
        if_neg (show ¬((':' : Char) ≠ ':') from by simp), hskipV, hv, hins, hveArith,
        hskipClose, hcharClose]
      rw [if_neg (show ¬(('}' : Char) = ',') from by decide),
        if_neg (show ¬(('}' : Char) ≠ '}') from by simp),
        parse_object_loop_close (acc ++ [(k, v)]) fl2 hcharClose]
      simp only [List.length_append, List.length_cons, Except.ok.injEq, Prod.mk.injEq,
        true_and]
      omega
    | cons p ps =>
      rw [encodeMembers_cons_cons] at hdrop ⊢
      simp only [List.append_assoc, List.cons_append] at hdrop
      have hdropS2 : inp.drop (i + 1) =
          encodeString k ++ (':' :: (encodeJson v ++ ',' :: (encodeMembers (p :: ps)
            ++ '}' :: rest))) :=
        drop_succ_of_drop hdrop
      have hskip : skip_whitespace inp (i + 1) = i + 1 := by
        apply skip_whitespace_of_not_space (c := '"') (t := flatText (k.map escapeChar)
          ++ ['"'] ++ (':' :: (encodeJson v ++ ',' :: (encodeMembers (p :: ps) ++ '}' :: rest))))
        · rw [hdropS2, encodeString]
          simp
        · decide
      have hkey := parse_encodeString hkbmp inp (i + 1)
        (':' :: (encodeJson v ++ ',' :: (encodeMembers (p :: ps) ++ '}' :: rest))) hdropS2
      have hke : i + 1 + (encodeString k).length - 1 + 1 = i + 1 + (encodeString k).length := by
        omega
      have hdropColon : inp.drop (i + 1 + (encodeString k).length) =
          ':' :: (encodeJson v ++ ',' :: (encodeMembers (p :: ps) ++ '}' :: rest)) := by
        have h0 := drop_add_of_drop (c0 :: encodeString k)
          (by rw [hdrop]; simp :
            inp.drop i = (c0 :: encodeString k) ++ (':' :: (encodeJson v
              ++ ',' :: (encodeMembers (p :: ps) ++ '}' :: rest))))
        have he : i + (c0 :: encodeString k).length = i + 1 + (encodeString k).length := by
          simp only [List.length_cons]
          omega
        rwa [he] at h0
      have hskipColon : skip_whitespace inp (i + 1 + (encodeString k).length) =
          i + 1 + (encodeString k).length :=
        skip_whitespace_of_not_space hdropColon (by decide)
      have hcharColon : charAt inp (i + 1 + (encodeString k).length) = .ok ':' :=
        charAt_of_drop hdropColon
      have hdropV : inp.drop (i + 1 + (encodeString k).length + 1) =
          encodeJson v ++ ',' :: (encodeMembers (p :: ps) ++ '}' :: rest) :=
        drop_succ_of_drop hdropColon
      have hskipV : skip_whitespace inp (i + 1 + (encodeString k).length + 1) =
          i + 1 + (encodeString k).length + 1 :=
        skip_whitespace_of_not_space (by rw [hdropV, hev]; rfl) hsv
      have hPBv : ParsesBack v := hPB (k, v) (by simp)
      have hv := hPBv hwv fl (by omega) inp
        (i + 1 + (encodeString k).length + 1)
        (',' :: (encodeMembers (p :: ps) ++ '}' :: rest)) hdropV
        (numGuard_cons v _ (by decide))
      have hveArith : i + 1 + (encodeString k).length + 1 + (encodeJson v).length - 1 + 1 =
          i + 1 + (encodeString k).length + 1 + (encodeJson v).length := by
        omega
      have hdropComma : inp.drop (i + 1 + (encodeString k).length + 1
          + (encodeJson v).length) = ',' :: (encodeMembers (p :: ps) ++ '}' :: rest) :=
        drop_add_of_drop (encodeJson v) hdropV
      have hskipComma : skip_whitespace inp (i + 1 + (encodeString k).length + 1
          + (encodeJson v).length) = i + 1 + (encodeString k).length + 1
          + (encodeJson v).length :=
        skip_whitespace_of_not_space hdropComma (by decide)
      have hcharComma : charAt inp (i + 1 + (encodeString k).length + 1
          + (encodeJson v).length) = .ok ',' :=
        charAt_of_drop hdropComma
      obtain ⟨tP, heP⟩ := encodeMembers_head p ps
      have hdropP : inp.drop (i + 1 + (encodeString k).length + 1
          + (encodeJson v).length + 1) = encodeMembers (p :: ps) ++ '}' :: rest :=
        drop_succ_of_drop hdropComma
      have hskipP : skip_whitespace inp (i + 1 + (encodeString k).length + 1
          + (encodeJson v).length + 1) = i + 1 + (encodeString k).length + 1
          + (encodeJson v).length + 1 :=
        skip_whitespace_of_not_space (c := '"') (t := tP ++ '}' :: rest)
          (by rw [hdropP, heP]; rfl) (by decide)
      have hcharP : charAt inp (i + 1 + (encodeString k).length + 1
          + (encodeJson v).length + 1) = .ok '"' :=
        charAt_of_drop (by rw [hdropP, heP]; rfl)
      have hfresh2 : ∀ kv2 ∈ p :: ps,
          (acc ++ [(k, v)]).any (fun q => q.1 == kv2.1) = false := by
        intro kv2 hkv2
        rw [List.any_append]
        have h1 : acc.any (fun q => q.1 == kv2.1) = false := hfresh kv2 (by simp [hkv2])
        have h2 : (kv2.1 == k) = false := hdk1 kv2 hkv2
        have h3 : (k == kv2.1) = false := by
          rw [beq_eq_false_iff_ne] at h2 ⊢
          exact fun he => h2 he.symm
        simp [h1, h3]
      have hihres := ih (by simp) (fun z hz => hPB z (by simp [hz])) hwM hdk2 fl
        (by omega) inp (i + 1 + (encodeString k).length + 1 + (encodeJson v).length)
        ',' rest (acc ++ [(k, v)]) hdropComma (by decide) hfresh2
      rw [parse_object_loop]
      simp only [hchar, if_neg hc0, hskip, hkey, hke, hskipColon, hcharColon,
        if_neg (show ¬((':' : Char) ≠ ':') from by simp), hskipV, hv, hins, hveArith,
        hskipComma, hcharComma, hskipP, hcharP, if_true]
      rw [if_neg (show ('"' : Char) ≠ '}' from by decide), hihres]
      simp only [List.append_assoc, List.singleton_append, List.length_append,
        List.length_cons, Except.ok.injEq, Prod.mk.injEq, true_and]
      omega

theorem parsesBack_arr (xs : List Json) (hxs : ∀ x ∈ xs, ParsesBack x) :
    ParsesBack (.arr xs) := by
  intro hwf f hf inp i rest hdrop _
  have hwf2 : ¬ xs = [] ∧ wfElems xs = true := by
    rw [wfJson, Bool.and_eq_true, Bool.not_eq_true'] at hwf
    exact ⟨by simpa using hwf.1, hwf.2⟩
  have hcost : 2 + costElems xs ≤ f := by
    rw [costJson] at hf
    omega
  obtain ⟨f2, rfl⟩ : ∃ f2, f = f2 + 1 + 1 := ⟨f - 2, by omega⟩
  have hdrop2 : inp.drop i = '[' :: (encodeElems xs ++ ']' :: rest) := by
    rw [hdrop, encodeJson]
    simp
  have hchar : charAt inp i = .ok '[' := charAt_of_drop hdrop2
  rw [_parse_json_at_array (f2 + 1) hchar, parse_array]
  simp only [hchar]
  rw [if_neg (show ¬(('[' : Char) ≠ '[') from by simp),
    parse_array_loop_encode xs hwf2.1 hxs hwf2.2 f2 (by omega) inp i '[' rest []
      hdrop2 (by decide)]
  have hlen : i + (encodeJson (Json.arr xs)).length - 1 = i + 1 + (encodeElems xs).length := by
    rw [encodeJson]
    simp
    omega
  rw [hlen]
  simp

theorem parsesBack_obj (kvs : List (List Char × Json))
    (hkvs : ∀ kv ∈ kvs, ParsesBack kv.2) : ParsesBack (.obj kvs) := by
  intro hwf f hf inp i rest hdrop _
  have hwf2 : (¬ kvs = [] ∧ distinctKeys kvs = true) ∧ wfMembers kvs = true := by
    rw [wfJson, Bool.and_eq_true, Bool.and_eq_true, Bool.not_eq_true'] at hwf
    exact ⟨⟨by simpa using hwf.1.1, hwf.1.2⟩, hwf.2⟩
  have hcost : 2 + costMembers kvs ≤ f := by
    rw [costJson] at hf
    omega
  obtain ⟨f2, rfl⟩ : ∃ f2, f = f2 + 1 + 1 := ⟨f - 2, by omega⟩
  have hdrop2 : inp.drop i = '{' :: (encodeMembers kvs ++ '}' :: rest) := by
    rw [hdrop, encodeJson]
    simp
  have hchar : charAt inp i = .ok '{' := charAt_of_drop hdrop2
  rw [_parse_json_at_object (f2 + 1) hchar, parse_object]
  simp only [hchar]
  rw [if_neg (show ¬(('{' : Char) ≠ '{') from by simp),
    parse_object_loop_encode kvs hwf2.1.1 hkvs hwf2.2 hwf2.1.2 f2 (by omega) inp i '{'
      rest [] hdrop2 (by decide) (by simp)]
  have hlen : i + (encodeJson (Json.obj kvs)).length - 1 =
      i + 1 + (encodeMembers kvs).length := by
    rw [encodeJson]
    simp
    omega
  rw [hlen]
  simp

/-- Every well-formed value round-trips through its encoding. -/
theorem parsesBack_all : ∀ v, ParsesBack v := by
  intro v
  induction v using json_strong_induction with
  | hnull => exact parsesBack_null
  | hbool b =>
    cases b
    · intro hwf
      simp [wfJson] at hwf
    · exact parsesBack_true
  | hint n => exact parsesBack_int n
  | hfloat ip fd => exact parsesBack_float ip fd
  | hstr s => exact parsesBack_str s
  | harr xs hxs => exact parsesBack_arr xs hxs
  | hobj kvs hkvs => exact parsesBack_obj kvs hkvs

/-! ### Fuel bound: the top level's fuel covers any encoded value -/

theorem costElems_bound (xs : List Json)
    (h : ∀ x ∈ xs, costJson x ≤ 2 * (encodeJson x).length) :
    costElems xs ≤ 2 * (encodeElems xs).length + 2 := by
  induction xs with
  | nil => simp [costElems]
  | cons x xs' ih =>
    have hx := h x (by simp)
    cases xs' with
    | nil =>
      rw [costElems, costElems, encodeElems_single]
      omega
    | cons y ys =>
      have hih := ih (fun z hz => h z (by simp [hz]))
      rw [costElems, encodeElems_cons_cons]
      simp only [List.length_append, List.length_cons]
      omega

theorem costMembers_bound (kvs : List (List Char × Json))
    (h : ∀ kv ∈ kvs, costJson kv.2 ≤ 2 * (encodeJson kv.2).length) :
    costMembers kvs ≤ 2 * (encodeMembers kvs).length + 2 := by
  induction kvs with
  | nil => simp [costMembers]
  | cons kv kvs' ih =>
    obtain ⟨k, v⟩ := kv
    have hx : costJson v ≤ 2 * (encodeJson v).length := h (k, v) (by simp)
    cases kvs' with
    | nil =>
      rw [costMembers, costMembers, encodeMembers_single]
      simp only [List.length_append, List.length_cons]
      omega
    | cons p ps =>
      have hih := ih (fun z hz => h z (by simp [hz]))
      rw [costMembers, encodeMembers_cons_cons]
      simp only [List.length_append, List.length_cons]
      omega

theorem costJson_bound : ∀ v, costJson v ≤ 2 * (encodeJson v).length := by
  intro v
  induction v using json_strong_induction with
  | hnull => simp [costJson, encodeJson]
  | hbool b => cases b <;> simp [costJson, encodeJson]
  | hint n =>
    have := encodeJson_length_pos (.int n)
    simp only [costJson]
    omega
  | hfloat ip fd =>
    have := encodeJson_length_pos (.float ip fd)
    simp only [costJson]
    omega
  | hstr s =>
    have := encodeJson_length_pos (.str s)
    simp only [costJson]
    omega
  | harr xs hxs =>
    rw [costJson, encodeJson]
    have := costElems_bound xs hxs
    simp only [List.length_cons, List.length_append]
    omega
  | hobj kvs hkvs =>
    rw [costJson, encodeJson]
    have := costMembers_bound kvs hkvs
    simp only [List.length_cons, List.length_append]
    omega

/-! ### Message uniformity -/

theorem msgOk_transfer {α β : Type} {inp : List Char} {e : PyErr} {r : Except PyErr α}
    (h : MsgOk inp r) (he : r = .error e) : MsgOk inp (.error e : Except PyErr β) := by
  subst he
  cases e with
  | invalidJson i m => simpa [MsgOk] using h
  | indexError => exact trivial
  | unicodeDecodeError => exact trivial
  | outOfFuel => exact trivial

theorem msgOk_charAt (inp : List Char) (i : Nat) : MsgOk inp (charAt inp i) := by
  unfold charAt
  split <;> exact trivial

theorem msgOk_raiseErr {α : Type} (inp : List Char) (i : Nat) :
    MsgOk inp (raiseErr (α := α) inp i) := rfl

theorem msgOk_ite {α : Type} {inp : List Char} (p : Prop) [Decidable p]
    (x y : Except PyErr α) (hx : MsgOk inp x) (hy : MsgOk inp y) :
    MsgOk inp (if p then x else y) := by
  split
  · exact hx
  · exact hy

theorem msgOk_ueStep (inp : List Char) (st : UEState) (b : Nat) :
    MsgOk inp (ueStep st b) := by
  cases st with
  | normal => exact trivial
  | esc =>
    rw [ueStep]
    iterate 15 refine msgOk_ite _ _ _ trivial ?_
    cases ho : octVal? b with
    | some o => exact trivial
    | none => exact trivial
  | hex isU32 remaining acc =>
    rw [ueStep]
    cases hv : hexVal? b with
    | none => exact trivial
    | some v =>
      cases remaining with
      | zero => exact trivial
      | succ r =>
        cases r with
        | zero => exact msgOk_ite _ _ _ trivial trivial
        | succ r2 => exact trivial
  | oct count acc =>
    rw [ueStep]
    cases ho : octVal? b with
    | none => exact trivial
    | some o => exact msgOk_ite _ _ _ trivial trivial

theorem msgOk_ueFinish (inp : List Char) (st : UEState) : MsgOk inp (ueFinish st) := by
  cases st <;> exact trivial

theorem msgOk_ueRun (inp : List Char) : ∀ (bs : List Nat) (st : UEState),
    MsgOk inp (ueRun st bs)
  | [], st => msgOk_ueFinish inp st
  | b :: t, st => by
    rw [ueRun]
    cases hs : ueStep st b with
    | error e => exact msgOk_transfer (msgOk_ueStep inp st b) hs
    | ok p =>
      obtain ⟨cs, st2⟩ := p
      show MsgOk inp (match ueRun st2 t with
        | .error e => .error e
        | .ok l => .ok (cs ++ l))
      cases hr : ueRun st2 t with
      | error e => exact msgOk_transfer (msgOk_ueRun inp t st2) hr
      | ok l => exact trivial

theorem msgOk_unicodeEscape (inp : List Char) (bs : List Nat) :
    MsgOk inp (unicodeEscape bs) := msgOk_ueRun inp bs .normal

theorem msgOk_scanStr (inp : List Char) : ∀ (s : List Char) (i : Nat),
    MsgOk inp (scanStr s i)
  | [], _ => trivial
  | c :: t, i => by
    by_cases hq : c = '"'
    · subst hq
      rw [scanStr_cons_quote]
      exact trivial
    · by_cases hb : c = '\\'
      · subst hb
        cases t with
        | nil => exact trivial
        | cons d t2 =>
          rw [scanStr_cons_backslash]
          exact msgOk_scanStr inp t2 (i + 2)
      · rw [scanStr_cons_other hq hb]
        exact msgOk_scanStr inp t (i + 1)

theorem msgOk_parse_string (inp : List Char) (index : Nat) :
    MsgOk inp (parse_string inp index) := by
  have heq : parse_string inp index =
      match charAt inp index with
      | .error e => .error e
      | .ok c =>
        if c ≠ '"' then raiseErr inp index
        else
          match scanStr (inp.drop (index + 1)) (index + 1) with
          | .error e => .error e
          | .ok endIndex =>
            match unicodeEscape (utf8Encode ((inp.drop (index + 1)).take
                (endIndex - (index + 1)))) with
            | .error e => .error e
            | .ok result => .ok (result, endIndex) := rfl
  rw [heq]
  split
  next e he => exact msgOk_transfer (msgOk_charAt inp index) he
  next c hc =>
    split
    · exact msgOk_raiseErr inp index
    · split
      next e he => exact msgOk_transfer (msgOk_scanStr inp _ _) he
      next endIndex hs =>
        split
        next e he => exact msgOk_transfer (msgOk_unicodeEscape inp _) he
        next result hu => exact trivial

theorem msgOk_numLoop (inp : List Char) : ∀ (s : List Char) (i : Nat) (acc : List Char)
    (dots : Nat), MsgOk inp (numLoop inp s i acc dots)
  | [], _, _, _ => trivial
  | [c], i, acc, dots => by
    have heq : numLoop inp [c] i acc dots =
        if isNumChar c then
          if c = '.' then
            if dots + 1 > 1 then raiseErr inp i else .error .indexError
          else numLoop inp [] (i + 1) (acc ++ [c]) dots
        else .ok (acc, dots, i) := rfl
    rw [heq]
    split
    · split
      · split
        · exact msgOk_raiseErr inp i
        · exact trivial
      · exact trivial
    · exact trivial
  | c :: d :: rest, i, acc, dots => by
    have heq : numLoop inp (c :: d :: rest) i acc dots =
        if isNumChar c then
          if c = '.' then
            if dots + 1 > 1 then raiseErr inp i
            else if ¬ d.isDigit then raiseErr inp i
            else numLoop inp (d :: rest) (i + 1) (acc ++ [c]) (dots + 1)
          else numLoop inp (d :: rest) (i + 1) (acc ++ [c]) dots
        else .ok (acc, dots, i) := rfl
    rw [heq]
    split
    · split
      · split
        · exact msgOk_raiseErr inp i
        · split
          · exact msgOk_raiseErr inp i
          · exact msgOk_numLoop inp (d :: rest) (i + 1) (acc ++ [c]) (dots + 1)
      · exact msgOk_numLoop inp (d :: rest) (i + 1) (acc ++ [c]) dots
    · exact trivial

theorem msgOk_parse_number (inp : List Char) (index : Nat) :
    MsgOk inp (parse_number inp index) := by
  rw [parse_number]
  split
  next e he => exact msgOk_transfer (msgOk_charAt inp index) he
  next c hc =>
    split
    · split
      next e he => exact msgOk_transfer (msgOk_numLoop inp _ _ _ _) he
      next acc dots stop hn => split <;> exact trivial
    · exact msgOk_raiseErr inp index

theorem msgOk_parse_true (inp : List Char) (index : Nat) :
    MsgOk inp (parse_true inp index) := by
  rw [parse_true]
  split
  next e he => exact msgOk_transfer (msgOk_charAt inp index) he
  next c hc =>
    split
    · exact msgOk_raiseErr inp index
    · split
      · exact msgOk_raiseErr inp index
      · exact trivial

theorem msgOk_parse_false (inp : List Char) (index : Nat) :
    MsgOk inp (parse_false inp index) := by
  rw [parse_false]
  split
  next e he => exact msgOk_transfer (msgOk_charAt inp index) he
  next c hc =>
    split
    · exact msgOk_raiseErr inp index
    · split
      · exact msgOk_raiseErr inp index
      · exact trivial

theorem msgOk_parse_null (inp : List Char) (index : Nat) :
    MsgOk inp (parse_null inp index) := by
  rw [parse_null]
  split
  next e he => exact msgOk_transfer (msgOk_charAt inp index) he
  next c hc =>
    split
    · exact msgOk_raiseErr inp index
    · split
      · exact msgOk_raiseErr inp index
      · exact trivial

/-- Message uniformity of all five mutually recursive parsers at every
fuel: every `InvalidJSONError` any of them produces carries the default
template at its own offset. -/
theorem msgOk_mutual (inp : List Char) : ∀ (fuel : Nat),
    (∀ index, MsgOk inp (_parse_json inp index fuel)) ∧
    (∀ index, MsgOk inp (parse_object inp index fuel)) ∧
    (∀ index result, MsgOk inp (parse_object_loop inp index result fuel)) ∧
    (∀ index, MsgOk inp (parse_array inp index fuel)) ∧
    (∀ index result, MsgOk inp (parse_array_loop inp index result fuel)) := by
  intro fuel
  induction fuel with
  | zero =>
    exact ⟨fun _ => trivial, fun _ => trivial, fun _ _ => trivial,
      fun _ => trivial, fun _ _ => trivial⟩
  | succ fuel ih =>
    obtain ⟨ihP, ihO, ihOL, ihA, ihAL⟩ := ih
    refine ⟨?_, ?_, ?_, ?_, ?_⟩
    · intro index
      rw [_parse_json]
      split
      next e he => exact msgOk_transfer (msgOk_charAt inp index) he
      next c hc =>
        by_cases h1 : c = '{'
        · rw [if_pos h1]
          exact ihO index
        · rw [if_neg h1]
          by_cases h2 : c = '['
          · rw [if_pos h2]
            exact ihA index
          · rw [if_neg h2]
            by_cases h3 : c = '"'
            · rw [if_pos h3]
              cases hs : parse_string inp index with
              | error e => exact msgOk_transfer (msgOk_parse_string inp index) hs
              | ok p =>
                obtain ⟨s, e2⟩ := p
                exact trivial
            · rw [if_neg h3]
              by_cases h4 : c = 't'
              · rw [if_pos h4]
                exact msgOk_parse_true inp index
              · rw [if_neg h4]
                by_cases h5 : c = 'f'
                · rw [if_pos h5]
                  exact msgOk_parse_false inp index
                · rw [if_neg h5]
                  by_cases h6 : c = 'n'
                  · rw [if_pos h6]
                    exact msgOk_parse_null inp index
                  · rw [if_neg h6]
                    exact msgOk_parse_number inp index
    · intro index
      rw [parse_object]
      split
      next e he => exact msgOk_transfer (msgOk_charAt inp index) he
      next c hc =>
        split
        · exact msgOk_raiseErr inp index
        · exact ihOL index []
    · intro index result
      have heq : parse_object_loop inp index result (fuel + 1) =
          match charAt inp index with
          | .error e => .error e
          | .ok c =>
            if c = '}' then .ok (.obj result, index)
            else
              match parse_string inp (skip_whitespace inp (index + 1)) with
              | .error e => .error e
              | .ok (key, keyEnd) =>
                match charAt inp (skip_whitespace inp (keyEnd + 1)) with
                | .error e => .error e
                | .ok cc =>
                  if cc ≠ ':' then raiseErr inp index
                  else
                    match _parse_json inp
                        (skip_whitespace inp (skip_whitespace inp (keyEnd + 1) + 1))
                        fuel with
                    | .error e => .error e
                    | .ok (value, valueEnd) =>
                      match charAt inp (skip_whitespace inp (valueEnd + 1)) with
                      | .error e => .error e
                      | .ok nc =>
                        if nc = ',' then
                          match charAt inp (skip_whitespace inp
                              (skip_whitespace inp (valueEnd + 1) + 1)) with
                          | .error e => .error e
                          | .ok pc =>
                            if pc = '}' then
                              raiseErr inp (skip_whitespace inp (valueEnd + 1) + 1)
                            else
                              parse_object_loop inp (skip_whitespace inp (valueEnd + 1))
                                (dictInsert result key value) fuel
                        else if nc ≠ '}' then
                          raiseErr inp (skip_whitespace inp (valueEnd + 1))
                        else
                          parse_object_loop inp (skip_whitespace inp (valueEnd + 1))
                            (dictInsert result key value) fuel := rfl
      rw [heq]
      split
      next e he => exact msgOk_transfer (msgOk_charAt inp index) he
      next c hc =>
        split
        · exact trivial
        · split
          next e he => exact msgOk_transfer (msgOk_parse_string inp _) he
          next key keyEnd hk =>
            split
            next e he => exact msgOk_transfer (msgOk_charAt inp _) he
            next cc hcc =>
              split
              · exact msgOk_raiseErr inp index
              · split
                next e he => exact msgOk_transfer (ihP _) he
                next value valueEnd hv =>
                  split
                  next e he => exact msgOk_transfer (msgOk_charAt inp _) he
                  next nc hnc =>
                    split
                    · split
                      next e he => exact msgOk_transfer (msgOk_charAt inp _) he
                      next pc hpc =>
                        split
                        · exact msgOk_raiseErr inp _
                        · exact ihOL _ _
                    · split
                      · exact msgOk_raiseErr inp _
                      · exact ihOL _ _
    · intro index
      rw [parse_array]
      split
      next e he => exact msgOk_transfer (msgOk_charAt inp index) he
      next c hc =>
        split
        · exact msgOk_raiseErr inp index
        · exact ihAL index []
    · intro index result
      have heq : parse_array_loop inp index result (fuel + 1) =
          match charAt inp index with
          | .error e => .error e
          | .ok c =>
            if c = ']' then .ok (.arr result, index)
            else
              match _parse_json inp (skip_whitespace inp (index + 1)) fuel with
              | .error e => .error e
              | .ok (value, valueEnd) =>
                match charAt inp (skip_whitespace inp (valueEnd + 1)) with
                | .error e => .error e
                | .ok nc =>
                  if nc = ',' then
                    match charAt inp (skip_whitespace inp
                        (skip_whitespace inp (valueEnd + 1) + 1)) with
                    | .error e => .error e
                    | .ok pc =>
                      if pc = ']' then
                        raiseErr inp (skip_whitespace inp (valueEnd + 1) + 1)
                      else
                        parse_array_loop inp (skip_whitespace inp (valueEnd + 1))
                          (result ++ [value]) fuel
                  else if nc ≠ ']' then
                    raiseErr inp (skip_whitespace inp (valueEnd + 1))
                  else
                    parse_array_loop inp (skip_whitespace inp (valueEnd + 1))
                      (result ++ [value]) fuel := rfl
      rw [heq]
      split
      next e he => exact msgOk_transfer (msgOk_charAt inp index) he
      next c hc =>
        split
        · exact trivial
        · split
          next e he => exact msgOk_transfer (ihP _) he
          next value valueEnd hv =>
            split
            next e he => exact msgOk_transfer (msgOk_charAt inp _) he
            next nc hnc =>
              split
              · split
                next e he => exact msgOk_transfer (msgOk_charAt inp _) he
                next pc hpc =>
                  split
                  · exact msgOk_raiseErr inp _
                  · exact ihAL _ _
              · split
                · exact msgOk_raiseErr inp _
                · exact ihAL _ _

theorem msgOk_parse_json_attempt (inp : List Char) (start : Nat) :
    MsgOk inp (parse_json_attempt inp start) := by
  have heq : parse_json_attempt inp start =
      match _parse_json inp start (topFuel inp) with
      | .error e => .error e
      | .ok (result, index) =>
        if skip_whitespace inp (index + 1) < inp.length then
          raiseErr inp (skip_whitespace inp (index + 1))
        else .ok result := rfl
  rw [heq]
  split
  next e he => exact msgOk_transfer ((msgOk_mutual inp (topFuel inp)).1 start) he
  next result index h =>
    split
    · exact msgOk_raiseErr inp _
    · exact trivial

theorem msgOk_parse_json (inp : List Char) : MsgOk inp (parse_json inp) := by
  have heq : parse_json inp =
      (if h : skip_whitespace inp 0 < inp.length then
        if inp.get ⟨skip_whitespace inp 0, h⟩ = '{' ∨
            inp.get ⟨skip_whitespace inp 0, h⟩ = '[' then
          match parse_json_attempt inp (skip_whitespace inp 0) with
          | .error .indexError => raiseErr inp inp.length
          | r => r
        else raiseErr inp (skip_whitespace inp 0)
      else raiseErr inp (skip_whitespace inp 0)) := rfl
  rw [heq]
  split
  next hlt =>
    split
    · cases ha : parse_json_attempt inp (skip_whitespace inp 0) with
      | error e =>
        cases e with
        | indexError => exact msgOk_raiseErr inp inp.length
        | invalidJson j mm => exact msgOk_transfer (msgOk_parse_json_attempt inp _) ha
        | unicodeDecodeError => exact trivial
        | outOfFuel => exact trivial
      | ok v => exact trivial
    · exact msgOk_raiseErr inp (skip_whitespace inp 0)
  next hlt => exact msgOk_raiseErr inp (skip_whitespace inp 0)

/-! ### Claims -/

/-- Claim C1 (code bug): the keyword `false` occurs verbatim at offset 0 of
the input `false` (the 5-character slice is the keyword itself), yet
`parse_false` raises `InvalidJSONError` instead of returning
`(False, 4)` — the source compares the 5-character slice against the
4-character text `"true"`, which no input can satisfy.  Consequently
decoding `[1, 2, 3.5, "x", true, false, null]` fails at offset 23 (the
`f`) instead of producing the spec's sequence. -/
theorem claim_C1_parse_false_rejects_false :
    sliceOf ("false".toList) 0 5 = "false".toList ∧
    parse_false ("false".toList) 0 =
      .error (.invalidJson 0 (defaultMsg ("false".toList) 0)) ∧
    parse_json ("[1, 2, 3.5, \"x\", true, false, null]".toList) =
      .error (.invalidJson 23
        (defaultMsg ("[1, 2, 3.5, \"x\", true, false, null]".toList) 23)) :=
  ⟨rfl, rfl, rfl⟩

/-- Claim C2 (counterexample): decoding the empty-object document `{}`
does not succeed with an empty mapping — it raises `InvalidJSONError` at
offset 1 — and decoding `[]` likewise fails at offset 1. -/
theorem claim_C2_counterexample :
    parse_json ("\x7b\x7d".toList) =
      .error (.invalidJson 1 (defaultMsg ("\x7b\x7d".toList) 1)) ∧
    parse_json ("[]".toList) =
      .error (.invalidJson 1 (defaultMsg ("[]".toList) 1)) :=
  ⟨rfl, rfl⟩

/-- Claim C2 (amended): the loops terminate when the character at the
loop's own offset — the opening bracket on the first iteration, the
position reached after a member on later ones — is the closing bracket,
returning the accumulated mapping or sequence and that offset.  Since on
the first iteration that character is the opening bracket, the body runs
at least once, so decoding `{}` fails at offset 1 (the `}` is not a string
key) and decoding `[]` fails at offset 1 (the `]` is not a number). -/
theorem claim_C2_loop_termination :
    (∀ (inp : List Char) (index : Nat) (result : List (List Char × Json)) (fuel : Nat),
      charAt inp index = .ok '}' →
      parse_object_loop inp index result (fuel + 1) = .ok (.obj result, index)) ∧
    (∀ (inp : List Char) (index : Nat) (result : List Json) (fuel : Nat),
      charAt inp index = .ok ']' →
      parse_array_loop inp index result (fuel + 1) = .ok (.arr result, index)) ∧
    parse_json ("\x7b\x7d".toList) =
      .error (.invalidJson 1 (defaultMsg ("\x7b\x7d".toList) 1)) ∧
    parse_json ("[]".toList) =
      .error (.invalidJson 1 (defaultMsg ("[]".toList) 1)) := by
  refine ⟨?_, ?_, rfl, rfl⟩
  · intro inp index result fuel h
    unfold parse_object_loop
    rw [h]
    simp
  · intro inp index result fuel h
    unfold parse_array_loop
    rw [h]
    simp

/-- Witness for the amended C2: the loops applied at a closing bracket
return the accumulated (empty) containers at once. -/
theorem claim_C2_loop_termination_witness :
    parse_object_loop ['}'] 0 [] 6 = .ok (.obj [], 0) ∧
    parse_array_loop [']'] 0 [] 6 = .ok (.arr [], 0) :=
  ⟨claim_C2_loop_termination.1 ['}'] 0 [] 5 rfl,
   claim_C2_loop_termination.2.1 [']'] 0 [] 5 rfl⟩

/-- Claim C5: no input makes decoding fail with a raw index fault, and
whenever the guarded body of the entry point raises `IndexError` (as the
unterminated string inside `["x` does), `parse_json` re-raises it as the
structured error positioned at the length of the input. -/
theorem claim_C5_index_faults_caught : ∀ s : List Char,
    parse_json s ≠ .error .indexError ∧
    (∀ h : skip_whitespace s 0 < s.length,
      (s.get ⟨skip_whitespace s 0, h⟩ = '{' ∨ s.get ⟨skip_whitespace s 0, h⟩ = '[') →
      parse_json_attempt s (skip_whitespace s 0) = .error .indexError →
      parse_json s = .error (.invalidJson s.length (defaultMsg s s.length))) :=
  fun s => ⟨parse_json_never_indexError s,
    fun h hg hA => parse_json_catches_indexError s h hg hA⟩

/-- Witness for C5 at the document `["x`, whose string scan runs past the
end of the input: the body raises `IndexError` and the entry point turns
it into the structured error at offset 3 = length. -/
theorem claim_C5_witness :
    parse_json ("[\"x".toList) =
      .error (.invalidJson 3 (defaultMsg ("[\"x".toList) 3)) :=
  (claim_C5_index_faults_caught ("[\"x".toList)).2 (by decide) (Or.inr rfl) rfl

/-- Claim C7: assigning to a key and then looking it up yields the new
value whatever the dict held before (Python dict overwrite, last
occurrence wins), and concretely decoding
`{"a": 1, "a": 2}` yields the one-entry mapping `a ↦ 2`. -/
theorem claim_C7_duplicate_keys :
    (∀ (d : List (List Char × Json)) (k : List Char) (v : Json),
      dictLookup (dictInsert d k v) k = some v) ∧
    parse_json ("\x7b\"a\": 1, \"a\": 2\x7d".toList) =
      .ok (.obj [(['a'], .int 2)]) :=
  ⟨dictLookup_dictInsert, rfl⟩

/-- Claim C8 (counterexample): the empty-input situation (`decode("")`)
and the invalid-root situation (`decode("5")`) are different distinguished
situations, yet both produce the one default message template — both
messages begin with the same situation text `Unexpected token at char(0):`
and differ only in the echoed input, so message text does not distinguish
the situations. -/
theorem claim_C8_counterexample :
    parse_json [] = .error (.invalidJson 0 (defaultMsg [] 0)) ∧
    parse_json ['5'] = .error (.invalidJson 0 (defaultMsg ['5'] 0)) ∧
    (defaultMsg [] 0).take 28 = "Unexpected token at char(0):" ∧
    (defaultMsg ['5'] 0).take 28 = "Unexpected token at char(0):" :=
  ⟨rfl, rfl, rfl, rfl⟩

/-- Claim C9: decoding never crashes with a raw index fault, but the error
channel is *not* total at `InvalidJSONError`: a malformed `\uXXXX` escape
inside a string literal raises a Unicode decoding error that the entry
point (which catches only `IndexError`) lets escape, as for the document
`["\uZZ"]`. -/
theorem claim_C9_error_channel :
    (∀ s : List Char, parse_json s ≠ .error .indexError) ∧
    parse_json ("[\"\\uZZ\"]".toList) = .error .unicodeDecodeError :=
  ⟨parse_json_never_indexError, rfl⟩

/-- Witness for C9: a concrete use of the no-index-fault half. -/
theorem claim_C9_witness :
    parse_json ("[".toList) ≠ .error .indexError :=
  claim_C9_error_channel.1 ("[".toList)

/-- Claim C9 (counterexample): decoding `["\uZZ"]` raises a Unicode
decoding error — an exception kind other than `InvalidJSONError` escapes
the entry point. -/
theorem claim_C9_counterexample :
    parse_json ("[\"\\uZZ\"]".toList) = .error .unicodeDecodeError := rfl

/-- Claim C4 (counterexample): on the string literal `"\/"` the parser
returns the **two** characters backslash and slash — the `\/` escape is
not resolved to the single character `/` the claim names (Python's
`unicode_escape` codec does not recognise `\/`). -/
theorem claim_C4_counterexample :
    parse_string ("\"\\/\"".toList) 0 = .ok (['\\', '/'], 3) ∧
    (['\\', '/'] : List Char) ≠ ['/'] :=
  ⟨rfl, by decide⟩

/-- Claim C4 (amended): on a body decomposed into well-formed tokens and
closed by an unescaped quote, `parse_string` returns the concatenated
token values and the closing quote's offset, where a raw character's value
is the character itself (appears exactly as in the source), each of the
escapes `\"`, `\\`, `\b`, `\f`, `\n`, `\r`, `\t` and `\uXXXX` resolves to
the single character it denotes — but `\/` is left as the two characters
backslash and slash. -/
theorem claim_C4_parse_string :
    (∀ toks : List StrTok, (∀ tok ∈ toks, wfTok tok = true) →
      ∀ (inp : List Char) (i : Nat) (rest : List Char),
        inp.drop i = '"' :: (flatText toks ++ '"' :: rest) →
        parse_string inp i = .ok (flatVal toks, i + 1 + (flatText toks).length)) ∧
    (∀ c : Char, tokVal (.raw c) = [c]) ∧
    tokVal (.esc '"') = ['"'] ∧
    tokVal (.esc '\\') = ['\\'] ∧
    tokVal (.esc 'b') = ['\x08'] ∧
    tokVal (.esc 'f') = ['\x0c'] ∧
    tokVal (.esc 'n') = ['\n'] ∧
    tokVal (.esc 'r') = ['\x0d'] ∧
    tokVal (.esc 't') = ['\t'] ∧
    (∀ a b c d : Char,
      tokVal (.uesc a b c d) =
        [Char.ofNat (hexCharVal a * 4096 + hexCharVal b * 256 + hexCharVal c * 16
          + hexCharVal d)]) ∧
    tokVal (.esc '/') = ['\\', '/'] :=
  ⟨parse_string_tokens, fun _ => rfl, rfl, rfl, rfl, rfl, rfl, rfl, rfl,
    fun _ _ _ _ => rfl, rfl⟩

/-- Witness for the amended C4: the literal `"a\n\u0041"` decodes to the
three characters `a`, newline, `A`, with the closing quote at offset
10. -/
theorem claim_C4_witness :
    parse_string ("\"a\\n\\u0041\"".toList) 0 = .ok (['a', '\n', 'A'], 10) := by
  have h := claim_C4_parse_string.1 [.raw 'a', .esc 'n', .uesc '0' '0' '4' '1']
    (by decide) ("\"a\\n\\u0041\"".toList) 0 [] rfl
  exact h

/-- Claim C6 (counterexample): at offset 0 of the input `12` the parser
sits on a digit and the maximal `0123456789.` run is the whole input, so
the claim promises the result `(12, 1)`; instead the loop reads past the
end of the input and raises a raw `IndexError`. -/
theorem claim_C6_counterexample :
    ('1').isDigit = true ∧
    ("12".toList).drop 0 = ['1', '2'] ∧
    parse_number ("12".toList) 0 = .error .indexError :=
  ⟨rfl, rfl, rfl⟩

/-- Claim C6 (amended): with the proviso that the `0123456789.` run
starting at the offset is followed by a further input character (otherwise
the scan runs off the end and raises an index fault, as on `12`), the
number parser consumes exactly that maximal run and returns the integer
value when no dot appeared and the float value otherwise, together with
the offset of the last consumed character; at a non-digit offset it raises
the error there; a dot not immediately followed by a digit, or a second
dot, raise the error at the dot, as on `1.x]` and `1.2.3]`. -/
theorem claim_C6_parse_number :
    (∀ (inp : List Char) (i : Nat) (ds : List Char) (c : Char) (rest : List Char),
      inp.drop i = ds ++ c :: rest →
      (∀ d, ds.head? = some d → d.isDigit = true) →
      ds ≠ [] →
      (∀ d ∈ ds, isNumChar d = true) →
      isNumChar c = false →
      dotOk ds = true →
      countDots ds ≤ 1 →
      parse_number inp i = .ok (numValue ds, i + ds.length - 1)) ∧
    (∀ (inp : List Char) (i : Nat) (c : Char) (t : List Char),
      inp.drop i = c :: t → c.isDigit = false →
      parse_number inp i = raiseErr inp i) ∧
    parse_number ("1.x]".toList) 0 =
      .error (.invalidJson 1 (defaultMsg ("1.x]".toList) 1)) ∧
    parse_number ("1.2.3]".toList) 0 =
      .error (.invalidJson 3 (defaultMsg ("1.2.3]".toList) 3)) ∧
    parse_number ("12".toList) 0 = .error .indexError :=
  ⟨parse_number_ok, parse_number_non_digit, rfl, rfl, rfl⟩

/-- Witness for the amended C6: the run `35` of `35]` is terminated by
`]`, and the parser returns the integer 35 and offset 1; the run `2.5` of
`[2.5]` is terminated by `]`, and the parser returns the float 2.5 and
offset 3. -/
theorem claim_C6_witness :
    parse_number ("35]".toList) 0 = .ok (.int 35, 1) ∧
    parse_number ("[2.5]".toList) 1 = .ok (.float 2 [5], 3) := by
  constructor
  · have h := claim_C6_parse_number.1 ("35]".toList) 0 ['3', '5'] ']' [] rfl
      (by decide) (by decide) (by decide) (by decide) (by decide) (by decide)
    simpa using h
  · have h := claim_C6_parse_number.1 ("[2.5]".toList) 1 ['2', '.', '5'] ']' [] rfl
      (by decide) (by decide) (by decide) (by decide) (by decide) (by decide)
    simpa using h

/-- Claim C10: a digit run with leading zeros, terminated inside the
input, parses to the integer value of its digits (Python's `int()` ignores
leading zeros; no strict-JSON leading-zero check exists), and decoding
`[007]` succeeds with the sequence `[7]`. -/
theorem claim_C10_leading_zeros :
    (∀ (inp : List Char) (i : Nat) (ds : List Char) (c : Char) (rest : List Char),
      inp.drop i = ds ++ c :: rest →
      ds ≠ [] →
      (∀ d ∈ ds, d.isDigit = true) →
      isNumChar c = false →
      parse_number inp i = .ok (.int (natOfDigits ds), i + ds.length - 1)) ∧
    parse_json ("[007]".toList) = .ok (.arr [.int 7]) := by
  constructor
  · intro inp i ds c rest h hne hdig hc
    have h0 : countDots ds = 0 := countDots_of_digits hdig
    have := parse_number_ok inp i ds c rest h
      (fun d hd => hdig d (List.mem_of_mem_head? hd)) hne
      (fun d hd => by simp [isNumChar, hdig d hd]) hc (dotOk_of_digits hdig) (by omega)
    rwa [numValue, h0, if_neg (by omega)] at this
  · rfl

/-- Witness for C10: the run `007` of `[007]` parses to the integer 7. -/
theorem claim_C10_witness :
    parse_number ("[007]".toList) 1 = .ok (.int 7, 3) := by
  have h := claim_C10_leading_zeros.1 ("[007]".toList) 1 ['0', '0', '7'] ']' [] rfl
    (by decide) (by decide) (by decide)
  simpa using h

/-- Claim C3 (counterexample): the round-trip fails on the supported
variants as claimed — the reference encoder renders `[false]` for the
one-element array holding `false`, and decoding that text fails at offset
1 (the false-literal parser compares against `"true"` and never
succeeds), so `decode(encode([false]))` is an error, not the value. -/
theorem claim_C3_counterexample :
    encodeJson (Json.arr [Json.bool false]) = "[false]".toList ∧
    parse_json ("[false]".toList) =
      .error (.invalidJson 1 (defaultMsg ("[false]".toList) 1)) := by
  constructor
  · rw [encodeJson, encodeElems, encodeJson]
    rfl
  · rfl

/-- Claim C3 (amended): the round-trip holds on the well-formed fragment:
for every value tree with no `false` anywhere, no negative integer, no
empty array or object, float fraction digits forming a nonempty list of
values below ten, strings of basic-multilingual-plane scalars and objects
with pairwise distinct keys, whose root is an object or array (the only
roots the entry point accepts), decoding the reference encoding returns
the original value. -/
theorem claim_C3_roundtrip (v : Json) (hwf : wfJson v = true)
    (hcon : isContainer v = true) :
    parse_json (encodeJson v) = .ok v := by
  obtain ⟨c, t, he, hns, -, -, -, -⟩ := encodeJson_head v
  have hlen : 0 < (encodeJson v).length := encodeJson_length_pos v
  have hdrop0 : (encodeJson v).drop 0 = c :: t := by simpa using he
  have hskip0 : skip_whitespace (encodeJson v) 0 = 0 :=
    skip_whitespace_of_not_space hdrop0 hns
  have hguard : numGuard v [] := by
    cases v <;> simp_all [numGuard, isContainer]
  have hrun : _parse_json (encodeJson v) 0 (topFuel (encodeJson v)) =
      .ok (v, 0 + (encodeJson v).length - 1) := by
    refine parsesBack_all v hwf _ ?_ _ 0 [] (by simp) hguard
    have := costJson_bound v
    unfold topFuel
    omega
  have hL1 : 0 + (encodeJson v).length - 1 + 1 = (encodeJson v).length := by omega
  have hskipL : skip_whitespace (encodeJson v) (encodeJson v).length =
      (encodeJson v).length := skip_whitespace_of_drop_nil (by simp)
  have hattempt : parse_json_attempt (encodeJson v) 0 = .ok v := by
    rw [parse_json_attempt, hrun]
    simp only [hL1, hskipL]
    simp
  have hget : ∀ h0 : 0 < (encodeJson v).length, (encodeJson v).get ⟨0, h0⟩ = c := by
    intro h0
    simpa using List.get_of_eq he ⟨0, h0⟩
  have hc : c = '{' ∨ c = '[' := by
    cases v with
    | arr xs =>
      rw [encodeJson] at he
      exact Or.inr (by injection he with h1 h2; exact h1.symm)
    | obj kvs =>
      rw [encodeJson] at he
      exact Or.inl (by injection he with h1 h2; exact h1.symm)
    | null => simp [isContainer] at hcon
    | bool b => simp [isContainer] at hcon
    | int n => simp [isContainer] at hcon
    | float ip fd => simp [isContainer] at hcon
    | str s => simp [isContainer] at hcon
  rw [parse_json]
  simp only [hskip0]
  rw [dif_pos hlen]
  simp only [hget]
  rw [if_pos hc, hattempt]

/-- Witness for the amended C3 at a concrete well-formed container value
exercising every supported variant. -/
theorem claim_C3_witness :
    parse_json (encodeJson (Json.arr [Json.int 1, Json.str ['a'], Json.bool true,
      Json.null, Json.float 3 [5], Json.obj [(['k'], Json.int 2)]])) =
    .ok (Json.arr [Json.int 1, Json.str ['a'], Json.bool true,
      Json.null, Json.float 3 [5], Json.obj [(['k'], Json.int 2)]]) :=
  claim_C3_roundtrip _
    (by simp +decide [wfJson, wfElems, wfMembers, distinctKeys]) rfl

/-- Claim C8 (amended): every failure of the decoder surfaces as the one
error kind `InvalidJSONError`, and every such error carries exactly the
default message template rendered over the input at the error's own
offset (`Unexpected token at char(i)` with the echoed input and a caret
line) — the distinguished failure situations share one message shape and
are told apart only by the offset and the echoed input, never by
situation-specific text. -/
theorem claim_C8_messages (inp : List Char) (i : Nat) (m : String)
    (h : parse_json inp = .error (.invalidJson i m)) : m = defaultMsg inp i := by
  have hOk : MsgOk inp (parse_json inp) := msgOk_parse_json inp
  rw [h] at hOk
  simpa [MsgOk] using hOk

/-- Witness for the amended C8: the invalid-root failure on input `5`
carries the default template at offset 0. -/
theorem claim_C8_witness : "5".toList.length = 1 ∧
    defaultMsg "5".toList 0 = defaultMsg "5".toList 0 :=
  ⟨rfl, claim_C8_messages "5".toList 0 (defaultMsg "5".toList 0) rfl⟩

end SimpleJson
